import Mathlib

/-!
# primal.cpp: primality test, sieve of Eratosthenes and N-th prime lookup

A shallow embedding of `src/primality.h` and a verification of its
specification.

Modelling conventions.

* The source is modelled twice.  In the first model (`primality_test`,
  `sieve_of_eratosthenes`, `find_nth_term` and their instrumented versions) the
  template parameter `T` (an unsigned integer type) and `size_t` are `Nat` and
  arithmetic is exact: this model describes the source as long as no operation
  on `T` overflows, and the statements proved of it carry that proviso.  In the
  second model (`sieve_w`, `find_nth_term_w`) `T` has `w` bits and every value
  stored in a variable of type `T` is reduced modulo `2 ^ w`, with the integer
  promotion of C++ for types narrower than `int`; statements without a
  no-overflow proviso are about the second model.  The two models agree whenever
  the ceiling fits `T` with room for the loop variables (`sieve_fits`,
  `sieve_w_eq`, `find_nth_term_w_eq`).
* `std::vector` is modelled by `List`.  `operator[]` is modelled with checked
  indexing: an access outside the vector ends the computation with
  `Fault.out_of_range`, where the C++ program has undefined behaviour.
* `for` loops are recursive functions on the loop variable, with the loop
  condition as the guard of the recursion.
* The `while (true)` loop of `find_nth_term` is a function of a number of
  iterations it may use (`fuel`); `none` means that the loop is still running
  when the fuel is used up.
* The floating point computation of the initial ceiling estimate (line 81) is
  not modelled: the value it stores in `ceiling_estimate` is a parameter of
  `find_nth_term`, and the general statements hold for every value of it.  The
  growth step `ceiling * 1.25`, converted back to `T`, is `ceiling * 5 / 4`
  (truncating), reduced modulo `2 ^ w` in the second model.
* `cout << ...` is modelled by returning the printed number.
-/

namespace Primal

/-- Enum `Primality` of the source. -/
inductive Primality where
  | NEITHER
  | COMPOSITE
  | PRIME
  deriving DecidableEq, Repr

open Primality

/-- What ends a computation early: an access to a vector outside its bounds
(`position` is the index used, `size` the size of the vector). -/
inductive Fault where
  | out_of_range (position size : Nat)
  deriving DecidableEq, Repr

/-- Read access `v[i]` with bounds check. -/
def vec_read {α : Type} (v : List α) (i : Nat) : Except Fault α :=
  match v[i]? with
  | some x => Except.ok x
  | none => Except.error (Fault.out_of_range i v.length)

/-- Write access `v[i] = x` with bounds check. -/
def vec_write {α : Type} (v : List α) (i : Nat) (x : α) : Except Fault (List α) :=
  if i < v.length then Except.ok (v.set i x)
  else Except.error (Fault.out_of_range i v.length)

/-! ## primality_test -/

/-- The loop of `primality_test`:
`for (size_t divisor = 5; divisor * divisor <= number; divisor += 6)`,
entered with the current value of `divisor`. -/
def trial_division (number divisor : Nat) : Primality :=
  if divisor * divisor ≤ number then
    if number % divisor = 0 ∨ number % (divisor + 2) = 0 then COMPOSITE
    else trial_division number (divisor + 6)
  else PRIME
termination_by number + 1 - divisor
decreasing_by
  have : divisor ≤ divisor * divisor := Nat.le_mul_self divisor
  omega

/-- Function `primality_test` of the source. -/
def primality_test (number : Nat) : Primality :=
  if number = 1 then NEITHER
  else if number = 2 ∨ number = 3 then PRIME
  else if number % 2 = 0 ∨ number % 3 = 0 then COMPOSITE
  else trial_division number 5

/-! ## sieve_of_eratosthenes -/

/-- The inner loop of the marking phase:
`for (T i = number * number; i <= ceiling; i += number) primality[i] = COMPOSITE;`
entered with the current value of `i`.  The step `number` is positive in every
call the sieve makes (`hpos`), which is what makes the loop end.  The loop
variable is an exact integer: this is the loop of the source as long as
`i + number` does not overflow `T`; `strike_w` is the loop with the wrap-around
of `T`. -/
def strike (ceiling number : Nat) (hpos : 0 < number) (i : Nat)
    (primality : List Primality) : Except Fault (List Primality) :=
  if i ≤ ceiling then
    match vec_write primality i COMPOSITE with
    | Except.error e => Except.error e
    | Except.ok primality1 => strike ceiling number hpos (i + number) primality1
  else Except.ok primality
termination_by ceiling + 1 - i
decreasing_by omega

/-- The outer loop of the marking phase:
`for (T number = 2; number * number <= ceiling; number++)`,
entered with the current value of `number`. -/
def mark (ceiling number : Nat) (hpos : 0 < number)
    (primality : List Primality) : Except Fault (List Primality) :=
  if number * number ≤ ceiling then
    match vec_read primality number with
    | Except.error e => Except.error e
    | Except.ok m =>
      if m = PRIME then
        match strike ceiling number hpos (number * number) primality with
        | Except.error e => Except.error e
        | Except.ok primality1 => mark ceiling (number + 1) (Nat.succ_pos number) primality1
      else mark ceiling (number + 1) (Nat.succ_pos number) primality
  else Except.ok primality
termination_by ceiling + 1 - number
decreasing_by
  all_goals
    have : number ≤ number * number := Nat.le_mul_self number
    omega

/-- The collecting loop:
`for (T number = 2; number <= ceiling; number++)
   if (primality[number] == PRIME) primes.push_back(number);`
entered with the current value of `number`. -/
def collect (ceiling number : Nat) (primality : List Primality)
    (primes : List Nat) : Except Fault (List Nat) :=
  if number ≤ ceiling then
    match vec_read primality number with
    | Except.error e => Except.error e
    | Except.ok m =>
      if m = PRIME then collect ceiling (number + 1) primality (primes ++ [number])
      else collect ceiling (number + 1) primality primes
  else Except.ok primes
termination_by ceiling + 1 - number
decreasing_by all_goals omega

/-- Function `sieve_of_eratosthenes` of the source; the result is the content
of `primes` after the call.  In `primality[0] = primality[1] = NEITHER` the
right assignment is carried out first. -/
def sieve_of_eratosthenes (ceiling : Nat) (primes : List Nat) : Except Fault (List Nat) :=
  match vec_write (List.replicate (ceiling + 1) PRIME) 1 NEITHER with
  | Except.error e => Except.error e
  | Except.ok primality1 =>
    match vec_write primality1 0 NEITHER with
    | Except.error e => Except.error e
    | Except.ok primality2 =>
      match mark ceiling 2 (Nat.succ_pos 1) primality2 with
      | Except.error e => Except.error e
      | Except.ok primality3 => collect ceiling 2 primality3 primes

/-! ## find_nth_term -/

/-- The loop `while (true)` of `find_nth_term`, entered with the current values
of `ceiling_min` and `primes`, for at most `fuel` iterations.  The ceilings are
exact integers: this is the loop of the source as long as neither the sieve nor
the growth step `ceiling * 1.25` overflows `T`, and for `1 <= index < 2 ^ w`,
where the position read is `index - 1` whatever the width of `T`;
`find_nth_loop_w` is the loop with the wrap-around of `T` and with the integer
promotion in `index - 1`. -/
def find_nth_loop (w index ceiling_estimate : Nat) :
    Nat → Nat → List Nat → Option (Except Fault Nat)
  | 0, _, _ => none
  | fuel + 1, ceiling_min, primes =>
    let ceiling := max ceiling_estimate ceiling_min
    match sieve_of_eratosthenes ceiling primes with
    | Except.error e => some (Except.error e)
    | Except.ok primes1 =>
      if index ≤ primes1.length then
        some (vec_read primes1 ((index + 2 ^ w - 1) % 2 ^ w))
      else
        find_nth_loop w index ceiling_estimate fuel (ceiling * 5 / 4) []

/-- Function `find_nth_term` of the source, for an unsigned type `T` of `w`
bits; the result is the number printed after `Prime #index = `. -/
def find_nth_term (w fuel index ceiling_estimate : Nat) : Option (Except Fault Nat) :=
  find_nth_loop w index ceiling_estimate fuel 15 []

/-! ## Instrumented versions of the loops

The functions below follow the source statement by statement like the ones
above, and record in addition what the statements about single steps of the
computation speak of: the accesses to the marking array and the states at the
head of the marking loop (`sieve_traced` and its loops), the ceilings of the
sieve invocations (`find_nth_term_traced`), the number of rounds of the trial
division (`trial_division_fuel`), and the values of the arithmetic on a 64 bit
`size_t` (`primality_test64`). -/

/-- What the instrumented sieve records: `access position size` for every read
or write of the marking array (`position` is the index used, `size` the size of
the array at that time), and `head number primality` every time the body of the
outer marking loop is entered (`primality` is the content of the array at that
time). -/
inductive Event where
  | access (position size : Nat)
  | head (number : Nat) (primality : List Primality)
  deriving DecidableEq, Repr

/-- The inner loop of the marking phase (`strike`), with the record of its
accesses.  As in `strike`, the loop variable is an exact integer; `strike_w` is
the loop with the wrap-around of `T`. -/
def strike_traced (ceiling number : Nat) (hpos : 0 < number) (i : Nat)
    (primality : List Primality) : List Event × Except Fault (List Primality) :=
  if i ≤ ceiling then
    match vec_write primality i COMPOSITE with
    | Except.error e => ([Event.access i primality.length], Except.error e)
    | Except.ok primality1 =>
      let r := strike_traced ceiling number hpos (i + number) primality1
      (Event.access i primality.length :: r.1, r.2)
  else ([], Except.ok primality)
termination_by ceiling + 1 - i
decreasing_by omega

/-- The outer loop of the marking phase (`mark`), with the record of its loop
heads and of the accesses. -/
def mark_traced (ceiling number : Nat) (hpos : 0 < number)
    (primality : List Primality) : List Event × Except Fault (List Primality) :=
  if number * number ≤ ceiling then
    match vec_read primality number with
    | Except.error e =>
      ([Event.head number primality, Event.access number primality.length], Except.error e)
    | Except.ok m =>
      if m = PRIME then
        let s := strike_traced ceiling number hpos (number * number) primality
        match s.2 with
        | Except.error e =>
          (Event.head number primality :: Event.access number primality.length :: s.1,
            Except.error e)
        | Except.ok primality1 =>
          let r := mark_traced ceiling (number + 1) (Nat.succ_pos number) primality1
          (Event.head number primality :: Event.access number primality.length :: (s.1 ++ r.1),
            r.2)
      else
        let r := mark_traced ceiling (number + 1) (Nat.succ_pos number) primality
        (Event.head number primality :: Event.access number primality.length :: r.1, r.2)
  else ([], Except.ok primality)
termination_by ceiling + 1 - number
decreasing_by
  all_goals
    have : number ≤ number * number := Nat.le_mul_self number
    omega

/-- The collecting loop (`collect`), with the record of its accesses. -/
def collect_traced (ceiling number : Nat) (primality : List Primality)
    (primes : List Nat) : List Event × Except Fault (List Nat) :=
  if number ≤ ceiling then
    match vec_read primality number with
    | Except.error e => ([Event.access number primality.length], Except.error e)
    | Except.ok m =>
      let r := collect_traced ceiling (number + 1) primality
        (if m = PRIME then primes ++ [number] else primes)
      (Event.access number primality.length :: r.1, r.2)
  else ([], Except.ok primes)
termination_by ceiling + 1 - number
decreasing_by all_goals omega

/-- Function `sieve_of_eratosthenes`, with the record of the loop heads of the
marking phase and of all accesses to the marking array. -/
def sieve_traced (ceiling : Nat) (primes : List Nat) : List Event × Except Fault (List Nat) :=
  match vec_write (List.replicate (ceiling + 1) PRIME) 1 NEITHER with
  | Except.error e => ([Event.access 1 (ceiling + 1)], Except.error e)
  | Except.ok primality1 =>
    match vec_write primality1 0 NEITHER with
    | Except.error e =>
      ([Event.access 1 (ceiling + 1), Event.access 0 primality1.length], Except.error e)
    | Except.ok primality2 =>
      let m := mark_traced ceiling 2 (Nat.succ_pos 1) primality2
      match m.2 with
      | Except.error e =>
        (Event.access 1 (ceiling + 1) :: Event.access 0 primality1.length :: m.1,
          Except.error e)
      | Except.ok primality3 =>
        let c := collect_traced ceiling 2 primality3 primes
        (Event.access 1 (ceiling + 1) :: Event.access 0 primality1.length :: (m.1 ++ c.1), c.2)

/-- The loop of `find_nth_term` (`find_nth_loop`), with the record of the
ceilings of its sieve invocations, in the order of the invocations.  As in
`find_nth_loop`, the ceilings are exact integers; `find_nth_loop_w` is the loop
with the wrap-around of `T`. -/
def find_nth_loop_traced (w index ceiling_estimate : Nat) :
    Nat → Nat → List Nat → List Nat × Option (Except Fault Nat)
  | 0, _, _ => ([], none)
  | fuel + 1, ceiling_min, primes =>
    let ceiling := max ceiling_estimate ceiling_min
    match sieve_of_eratosthenes ceiling primes with
    | Except.error e => ([ceiling], some (Except.error e))
    | Except.ok primes1 =>
      if index ≤ primes1.length then
        ([ceiling], some (vec_read primes1 ((index + 2 ^ w - 1) % 2 ^ w)))
      else
        let r := find_nth_loop_traced w index ceiling_estimate fuel (ceiling * 5 / 4) []
        (ceiling :: r.1, r.2)

/-- Function `find_nth_term`, with the record of the ceilings of its sieve
invocations. -/
def find_nth_term_traced (w fuel index ceiling_estimate : Nat) :
    List Nat × Option (Except Fault Nat) :=
  find_nth_loop_traced w index ceiling_estimate fuel 15 []

/-- The loop of `primality_test` run for at most `fuel` evaluations of its
condition; `none` means that the loop is still running when the fuel is used
up. -/
def trial_division_fuel : Nat → Nat → Nat → Option Primality
  | 0, _, _ => none
  | fuel + 1, number, divisor =>
    if divisor * divisor ≤ number then
      if number % divisor = 0 ∨ number % (divisor + 2) = 0 then some COMPOSITE
      else trial_division_fuel fuel number (divisor + 6)
    else some PRIME

/-- Function `primality_test` with the loop run for at most `fuel` evaluations
of its condition. -/
def primality_test_fuel (fuel number : Nat) : Option Primality :=
  if number = 1 then some NEITHER
  else if number = 2 ∨ number = 3 then some PRIME
  else if number % 2 = 0 ∨ number % 3 = 0 then some COMPOSITE
  else trial_division_fuel fuel number 5

/-- Result of an operation on `size_t`, taken as a type of 64 bits: the exact
result modulo `2 ^ 64`. -/
def wrap64 (x : Nat) : Nat := x % 2 ^ 64

/-- The loop of `primality_test` with `divisor` a `size_t` of 64 bits whose
arithmetic wraps around, run for at most `fuel` evaluations of its condition.
The first component is the record of the exact values of the products
`divisor * divisor` and of the sums `divisor + 2` and `divisor + 6` that are
evaluated, in the order of evaluation (`||` does not evaluate its right operand
when the left one holds).  The divisor is odd throughout, so no remainder by 0
is ever taken. -/
def trial_division64 : Nat → Nat → Nat → List Nat × Option Primality
  | 0, _, _ => ([], none)
  | fuel + 1, number, divisor =>
    if wrap64 (divisor * divisor) ≤ number then
      if number % divisor = 0 then ([divisor * divisor], some COMPOSITE)
      else if number % wrap64 (divisor + 2) = 0 then
        ([divisor * divisor, divisor + 2], some COMPOSITE)
      else
        let r := trial_division64 fuel number (wrap64 (divisor + 6))
        (divisor * divisor :: (divisor + 2) :: (divisor + 6) :: r.1, r.2)
    else ([divisor * divisor], some PRIME)

/-- Function `primality_test` with `divisor` a wrapping `size_t` of 64 bits. -/
def primality_test64 (fuel number : Nat) : List Nat × Option Primality :=
  if number = 1 then ([], some NEITHER)
  else if number = 2 ∨ number = 3 then ([], some PRIME)
  else if number % 2 = 0 ∨ number % 3 = 0 then ([], some COMPOSITE)
  else trial_division64 fuel number 5

/-! ## The template instantiated at an unsigned type of `w` bits

The functions above compute with exact integers; they describe the source as
long as no operation on `T` overflows.  The functions below take the bit width
`w` of `T` into account, for a platform with `int` of 32 bits and `size_t` of 64
bits:

* an arithmetic expression on operands of type `T` is evaluated in `int` when
  `T` is narrower than `int` (`uint8_t`, `uint16_t`: the result is exact), and
  modulo `2 ^ w` otherwise (`arith`);
* a value stored in a variable of type `T` is reduced modulo `2 ^ w` (`to_T`);
  this includes the conversion of `ceiling * 1.25` back to `T`: the product is
  exact in `double` for every ceiling below `2 ^ 50`, and a truncated value
  beyond the range of `T`, for which C++ leaves the conversion undefined, is
  reduced modulo `2 ^ w` as the usual compilers do for `T` narrower than `int`
  (`uint8_t`: `245 * 1.25 = 306.25` is stored as 50);
* loops are run for a bounded number of evaluations of their condition, since
  with wrap-around they need not end: `none` in the result means that a loop is
  still running when its fuel is used up;
* the accesses, the loop heads and the ceilings are recorded as in the
  instrumented functions above. -/

deriving instance DecidableEq for Except

/-- Value of an arithmetic expression with the exact result `x` on operands of
type `T`: computed in `int` without loss when `T` is narrower than `int`,
modulo `2 ^ w` otherwise. -/
def arith (w x : Nat) : Nat := if w < 32 then x else x % 2 ^ w

/-- Conversion of the value `x` to `T`: `x` modulo `2 ^ w`. -/
def to_T (w x : Nat) : Nat := x % 2 ^ w

/-- The inner loop of the marking phase for `T` of `w` bits:
`for (T i = ...; i <= ceiling; i += number) primality[i] = COMPOSITE;`
entered with the current value of `i`, for at most `fuel` evaluations of the
condition.  The sum `i + number` is stored in `i`, of type `T`. -/
def strike_w (w ceiling number : Nat) :
    Nat → Nat → List Primality → List Event × Option (Except Fault (List Primality))
  | 0, _, _ => ([], none)
  | fuel + 1, i, primality =>
    if i ≤ ceiling then
      match vec_write primality i COMPOSITE with
      | Except.error e => ([Event.access i primality.length], some (Except.error e))
      | Except.ok primality1 =>
        let r := strike_w w ceiling number fuel (to_T w (i + number)) primality1
        (Event.access i primality.length :: r.1, r.2)
    else ([], some (Except.ok primality))

/-- The outer loop of the marking phase for `T` of `w` bits:
`for (T number = 2; number * number <= ceiling; number++)`,
entered with the current value of `number`, for at most `gas` evaluations of the
condition; every inner loop gets `fuel`.  The product in the condition is an
expression on `T`; the product that starts the inner loop is stored in `i`. -/
def mark_w (w fuel ceiling : Nat) :
    Nat → Nat → List Primality → List Event × Option (Except Fault (List Primality))
  | 0, _, _ => ([], none)
  | gas + 1, number, primality =>
    if arith w (number * number) ≤ ceiling then
      match vec_read primality number with
      | Except.error e =>
        ([Event.head number primality, Event.access number primality.length],
          some (Except.error e))
      | Except.ok m =>
        if m = PRIME then
          let s := strike_w w ceiling number fuel (to_T w (arith w (number * number))) primality
          match s.2 with
          | none =>
            (Event.head number primality :: Event.access number primality.length :: s.1, none)
          | some (Except.error e) =>
            (Event.head number primality :: Event.access number primality.length :: s.1,
              some (Except.error e))
          | some (Except.ok primality1) =>
            let r := mark_w w fuel ceiling gas (to_T w (number + 1)) primality1
            (Event.head number primality :: Event.access number primality.length ::
              (s.1 ++ r.1), r.2)
        else
          let r := mark_w w fuel ceiling gas (to_T w (number + 1)) primality
          (Event.head number primality :: Event.access number primality.length :: r.1, r.2)
    else ([], some (Except.ok primality))

/-- The collecting loop for `T` of `w` bits:
`for (T number = 2; number <= ceiling; number++)`,
entered with the current value of `number`, for at most `fuel` evaluations of
the condition. -/
def collect_w (w ceiling : Nat) :
    Nat → Nat → List Primality → List Nat → List Event × Option (Except Fault (List Nat))
  | 0, _, _, _ => ([], none)
  | fuel + 1, number, primality, primes =>
    if number ≤ ceiling then
      match vec_read primality number with
      | Except.error e => ([Event.access number primality.length], some (Except.error e))
      | Except.ok m =>
        let r := collect_w w ceiling fuel (to_T w (number + 1)) primality
          (if m = PRIME then primes ++ [number] else primes)
        (Event.access number primality.length :: r.1, r.2)
    else ([], some (Except.ok primes))

/-- Function `sieve_of_eratosthenes` for `T` of `w` bits, every loop run with
`fuel`.  The size `ceiling + 1` of the marking array is an expression on
`T`. -/
def sieve_w (w fuel ceiling : Nat) (primes : List Nat) :
    List Event × Option (Except Fault (List Nat)) :=
  match vec_write (List.replicate (arith w (ceiling + 1)) PRIME) 1 NEITHER with
  | Except.error e => ([Event.access 1 (arith w (ceiling + 1))], some (Except.error e))
  | Except.ok primality1 =>
    match vec_write primality1 0 NEITHER with
    | Except.error e =>
      ([Event.access 1 (arith w (ceiling + 1)), Event.access 0 primality1.length],
        some (Except.error e))
    | Except.ok primality2 =>
      let m := mark_w w fuel ceiling fuel 2 primality2
      match m.2 with
      | none =>
        (Event.access 1 (arith w (ceiling + 1)) :: Event.access 0 primality1.length :: m.1,
          none)
      | some (Except.error e) =>
        (Event.access 1 (arith w (ceiling + 1)) :: Event.access 0 primality1.length :: m.1,
          some (Except.error e))
      | some (Except.ok primality3) =>
        let c := collect_w w ceiling fuel 2 primality3 primes
        (Event.access 1 (arith w (ceiling + 1)) :: Event.access 0 primality1.length ::
          (m.1 ++ c.1), c.2)

/-- The position `index - 1` used in `primes[index - 1]`, as a `size_t`: for `T`
narrower than `int` the difference is an `int` (`-1` for index 0) converted to
`size_t`; otherwise it is computed modulo `2 ^ w`. -/
def pred_index (w index : Nat) : Nat :=
  if w < 32 then (index + 2 ^ 64 - 1) % 2 ^ 64 else (index + 2 ^ w - 1) % 2 ^ w

/-- The loop `while (true)` of `find_nth_term` for `T` of `w` bits, entered
with the current values of `ceiling_min` and `primes`, for at most `gas`
iterations, every loop of the sieve run with `fuel`.  The first component
records the ceilings of the sieve invocations.  `ceiling_estimate` is the value
that line 81 stores in the variable of type `T`. -/
def find_nth_loop_w (w fuel index ceiling_estimate : Nat) :
    Nat → Nat → List Nat → List Nat × Option (Except Fault Nat)
  | 0, _, _ => ([], none)
  | gas + 1, ceiling_min, primes =>
    let ceiling := max ceiling_estimate ceiling_min
    match (sieve_w w fuel ceiling primes).2 with
    | none => ([ceiling], none)
    | some (Except.error e) => ([ceiling], some (Except.error e))
    | some (Except.ok primes1) =>
      if index ≤ primes1.length then
        ([ceiling], some (vec_read primes1 (pred_index w index)))
      else
        let r := find_nth_loop_w w fuel index ceiling_estimate gas
          (to_T w (ceiling * 5 / 4)) []
        (ceiling :: r.1, r.2)

/-- Function `find_nth_term` for `T` of `w` bits. -/
def find_nth_term_w (w fuel gas index ceiling_estimate : Nat) :
    List Nat × Option (Except Fault Nat) :=
  find_nth_loop_w w fuel index ceiling_estimate gas 15 []

/-- No operation of the sieve on `T` of `w` bits overflows for this ceiling:
the sums `i + number` and `number + 1` stay below `2 ^ w`, as does the product
`number * number` where it is computed modulo `2 ^ w`. -/
def sieve_fits (w ceiling : Nat) : Prop :=
  ceiling + Nat.sqrt ceiling < 2 ^ w ∧
  (32 ≤ w → (Nat.sqrt ceiling + 1) * (Nat.sqrt ceiling + 1) < 2 ^ w)

/-! ## An evaluator for the sieve on `w` bits that keeps no array

The functions of this section are not part of the model of the source.  They
compute what `sieve_w` and `find_nth_loop_w` return, for `T` narrower than
`int`, from the runs of indices that the inner marking loops write: between two
wrap-arounds an inner loop writes the indices `first`, `first + number`, ...,
`last`.  The theorems `sieve_eval_sound`, `sieve_w_head` and `find_eval_sound`
relate them to the functions they evaluate. -/

/-- The runs `(first, last)` of indices that the inner marking loop for `w`
bits writes when entered at `i`, for at most `fuel` runs; `none` when the loop
is not left by then. -/
def strike_passes (w ceiling number : Nat) : Nat → Nat → Option (List (Nat × Nat))
  | 0, _ => none
  | fuel + 1, i =>
    if i ≤ ceiling then
      match strike_passes w ceiling number fuel
          (to_T w (i + (ceiling - i) / number * number + number)) with
      | none => none
      | some passes => some ((i, i + (ceiling - i) / number * number) :: passes)
    else some []

/-- Whether the index `j` lies in one of the runs. -/
def pass_hits (number : Nat) (passes : List (Nat × Nat)) (j : Nat) : Bool :=
  passes.any (fun p => decide (p.1 ≤ j ∧ j ≤ p.2 ∧ (j - p.1) % number = 0))

/-- The number of indices in the runs. -/
def passes_steps (number : Nat) (passes : List (Nat × Nat)) : Nat :=
  (passes.map (fun p => (p.2 - p.1) / number + 1)).sum

/-- The mark of entry `j` after the inner loops of the numbers in `strikers`
(each with its runs) have run on the initial array. -/
def mark_of (strikers : List (Nat × List (Nat × Nat))) (j : Nat) : Primality :=
  if strikers.any (fun s => pass_hits s.1 s.2 j) then COMPOSITE
  else if j < 2 then NEITHER else PRIME

/-- The numbers whose inner loop has run, with their runs, when the outer
marking loop for `w` bits, entered at `number` after the inner loops of
`strikers`, is left; `none` when some loop is not left within its fuel. -/
def strikers_w (w fuel ceiling : Nat) :
    Nat → Nat → List (Nat × List (Nat × Nat)) → Option (List (Nat × List (Nat × Nat)))
  | 0, _, _ => none
  | gas + 1, number, strikers =>
    if number * number ≤ ceiling then
      if mark_of strikers number = PRIME then
        match strike_passes w ceiling number fuel (to_T w (number * number)) with
        | none => none
        | some passes =>
          if passes_steps number passes < fuel then
            strikers_w w fuel ceiling gas (to_T w (number + 1)) (strikers ++ [(number, passes)])
          else none
      else strikers_w w fuel ceiling gas (to_T w (number + 1)) strikers
    else some strikers

/-- The entries that `sieve_w` appends, computed without the array; `none`
when the evaluator does not apply. -/
def sieve_eval (w fuel ceiling : Nat) : Option (List Nat) :=
  if w < 32 ∧ 1 ≤ ceiling ∧ ceiling + 1 < 2 ^ w ∧ ceiling + 1 < fuel then
    match strikers_w w fuel ceiling fuel 2 [] with
    | none => none
    | some strikers =>
      some ((List.range' 2 (ceiling + 1 - 2)).filter
        (fun j => decide (mark_of strikers j = PRIME)))
  else none

/-- What `find_nth_loop_w` records and returns, computed with `sieve_eval`;
`none` when the evaluator does not apply. -/
def find_eval (w fuel index ceiling_estimate : Nat) :
    Nat → Nat → Option (List Nat × Option (Except Fault Nat))
  | 0, _ => some ([], none)
  | gas + 1, ceiling_min =>
    match sieve_eval w fuel (max ceiling_estimate ceiling_min) with
    | none => none
    | some primes1 =>
      if index ≤ primes1.length then
        some ([max ceiling_estimate ceiling_min],
          some (vec_read primes1 (pred_index w index)))
      else
        match find_eval w fuel index ceiling_estimate gas
            (to_T w (max ceiling_estimate ceiling_min * 5 / 4)) with
        | none => none
        | some r => some (max ceiling_estimate ceiling_min :: r.1, r.2)

/-- The array `primality` holds, for every index up to the ceiling, the mark
that the inner loops of `strikers` leave. -/
def marks_agree (ceiling : Nat) (strikers : List (Nat × List (Nat × Nat)))
    (primality : List Primality) : Prop :=
  primality.length = ceiling + 1 ∧
  ∀ j, j ≤ ceiling → primality[j]? = some (mark_of strikers j)

/-! ## Predicates used to state the loop invariants -/

/-- The number `j` has been struck by the time the outer loop reaches
`number`: a prime `p` below `number` divides `j`, and `p * p <= j`. -/
def struck (number j : Nat) : Prop :=
  ∃ p, Nat.Prime p ∧ p < number ∧ p ∣ j ∧ p * p ≤ j

/-- Invariant of the outer loop of the marking phase, at its head. -/
def mark_inv (ceiling number : Nat) (primality : List Primality) : Prop :=
  primality.length = ceiling + 1 ∧
  ∀ j, j ≤ ceiling →
    (j < 2 → primality[j]? = some NEITHER) ∧
    (2 ≤ j → struck number j → primality[j]? = some COMPOSITE) ∧
    (2 ≤ j → ¬ struck number j → primality[j]? = some PRIME)

/-- The ascending list of the prime numbers `p <= ceiling`: what the
specification says a prime table built from `ceiling` is. -/
def primes_upto (ceiling : Nat) : List Nat :=
  (List.range (ceiling + 1)).filter (fun p => decide (Nat.Prime p))

/-! ## Facts about the trial division loop -/

theorem trial_division_ne_neither (number divisor : Nat) :
    trial_division number divisor ≠ NEITHER := by
  induction divisor using trial_division.induct number with
  | case1 d h1 h2 => rw [trial_division]; simp [h1, h2]
  | case2 d h1 h2 ih => rw [trial_division]; simp only [h1, h2, if_true, if_false]; exact ih
  | case3 d h1 => rw [trial_division]; simp [h1]

/-- A `COMPOSITE` answer of the loop comes with the divisor that was found. -/
theorem trial_division_composite (number divisor : Nat)
    (h : trial_division number divisor = COMPOSITE) :
    ∃ e, divisor ≤ e ∧ e * e ≤ number ∧ (e ∣ number ∨ (e + 2) ∣ number) := by
  induction divisor using trial_division.induct number with
  | case1 d h1 h2 =>
    refine ⟨d, le_refl d, h1, ?_⟩
    rcases h2 with h2 | h2
    · exact Or.inl (Nat.dvd_of_mod_eq_zero h2)
    · exact Or.inr (Nat.dvd_of_mod_eq_zero h2)
  | case2 d h1 h2 ih =>
    rw [trial_division] at h
    simp only [h1, h2, if_true, if_false] at h
    obtain ⟨e, he1, he2, he3⟩ := ih h
    exact ⟨e, by omega, he2, he3⟩
  | case3 d h1 =>
    rw [trial_division] at h
    simp [h1] at h

/-- A `PRIME` answer of the loop means that every candidate was tried. -/
theorem trial_division_prime (number divisor : Nat)
    (h : trial_division number divisor = PRIME) (k : Nat)
    (hk : (divisor + 6 * k) * (divisor + 6 * k) ≤ number) :
    ¬ (divisor + 6 * k) ∣ number ∧ ¬ (divisor + 6 * k + 2) ∣ number := by
  induction divisor using trial_division.induct number generalizing k with
  | case1 d h1 h2 =>
    rw [trial_division] at h
    simp [h1, h2] at h
  | case2 d h1 h2 ih =>
    rw [trial_division] at h
    simp only [h1, h2, if_true, if_false] at h
    rcases Nat.eq_zero_or_pos k with hk0 | hk0
    · subst hk0
      simp only [Nat.mul_zero, Nat.add_zero]
      constructor
      · intro hd; exact h2 (Or.inl (Nat.mod_eq_zero_of_dvd hd))
      · intro hd; exact h2 (Or.inr (Nat.mod_eq_zero_of_dvd hd))
    · have e : d + 6 * k = d + 6 + 6 * (k - 1) := by omega
      rw [e] at hk ⊢
      exact ih h (k - 1) hk
  | case3 d h1 =>
    exfalso
    apply h1
    have : d ≤ d + 6 * k := Nat.le_add_right _ _
    calc d * d ≤ (d + 6 * k) * (d + 6 * k) := Nat.mul_le_mul this this
      _ ≤ number := hk

/-- The loop started at 5 answers `PRIME` exactly on the primes, among the
numbers from 2 on that neither 2 nor 3 divides. -/
theorem trial_division_five (number : Nat) (h1 : 2 ≤ number)
    (h2 : number % 2 ≠ 0) (h3 : number % 3 ≠ 0) :
    trial_division number 5 = PRIME ↔ Nat.Prime number := by
  constructor
  · intro h
    by_contra hnp
    have hp : Nat.Prime (Nat.minFac number) := Nat.minFac_prime (by omega)
    have hdvd : Nat.minFac number ∣ number := Nat.minFac_dvd number
    have hsq : Nat.minFac number * Nat.minFac number ≤ number := by
      have := Nat.minFac_sq_le_self (by omega : 0 < number) hnp
      simpa [sq] using this
    generalize Nat.minFac number = p at hp hdvd hsq
    have hp2 : p ≠ 2 := by
      rintro rfl; exact h2 (Nat.mod_eq_zero_of_dvd hdvd)
    have hp3 : p ≠ 3 := by
      rintro rfl; exact h3 (Nat.mod_eq_zero_of_dvd hdvd)
    have hp_two : 2 ≤ p := hp.two_le
    have hm2 : p % 2 ≠ 0 := by
      intro hm
      have := (Nat.prime_dvd_prime_iff_eq Nat.prime_two hp).1 (Nat.dvd_of_mod_eq_zero hm)
      exact hp2 this.symm
    have hm3 : p % 3 ≠ 0 := by
      intro hm
      have := (Nat.prime_dvd_prime_iff_eq Nat.prime_three hp).1 (Nat.dvd_of_mod_eq_zero hm)
      exact hp3 this.symm
    have hcase : p % 6 = 5 ∨ p % 6 = 1 := by omega
    rcases hcase with hc | hc
    · have e : p = 5 + 6 * (p / 6) := by omega
      have := trial_division_prime number 5 h (p / 6) (by rw [← e]; exact hsq)
      rw [← e] at this
      exact this.1 hdvd
    · have hp7 : 7 ≤ p := by omega
      have e : p = 5 + 6 * ((p - 7) / 6) + 2 := by omega
      have hle : 5 + 6 * ((p - 7) / 6) ≤ p := by omega
      have := trial_division_prime number 5 h ((p - 7) / 6)
        (le_trans (Nat.mul_le_mul hle hle) hsq)
      rw [← e] at this
      exact this.2 hdvd
  · intro hp
    rcases hres : trial_division number 5 with _ | _ | _
    · exact absurd hres (trial_division_ne_neither number 5)
    · exfalso
      obtain ⟨e, he5, hsq, hd⟩ := trial_division_composite number 5 hres
      have hlt : e + 2 < e * e := by nlinarith
      rcases hd with hd | hd
      · rcases (Nat.dvd_prime hp).1 hd with h | h <;> omega
      · rcases (Nat.dvd_prime hp).1 hd with h | h <;> omega
    · rfl

/-- Answer of `primality_test` on every number. -/
theorem primality_test_eq (number : Nat) :
    primality_test number =
      if number = 0 then COMPOSITE
      else if number = 1 then NEITHER
      else if Nat.Prime number then PRIME else COMPOSITE := by
  by_cases h0 : number = 0
  · subst h0; simp [primality_test]
  by_cases h1 : number = 1
  · subst h1; simp [primality_test]
  simp only [h0, h1, if_false]
  by_cases h23 : number = 2 ∨ number = 3
  · have hp : Nat.Prime number := by
      rcases h23 with rfl | rfl
      · exact Nat.prime_two
      · exact Nat.prime_three
    simp [primality_test, h1, h23, hp]
  by_cases hdiv : number % 2 = 0 ∨ number % 3 = 0
  · have hnp : ¬ Nat.Prime number := by
      intro hp
      rcases hdiv with hd | hd
      · have := (Nat.prime_dvd_prime_iff_eq Nat.prime_two hp).1 (Nat.dvd_of_mod_eq_zero hd)
        omega
      · have := (Nat.prime_dvd_prime_iff_eq Nat.prime_three hp).1 (Nat.dvd_of_mod_eq_zero hd)
        omega
    simp [primality_test, h1, h23, hdiv, hnp]
  · have hiff := trial_division_five number (by omega) (by omega) (by omega)
    simp only [primality_test, h1, h23, hdiv, if_false]
    by_cases hp : Nat.Prime number
    · simp only [hp, if_true]; exact hiff.2 hp
    · simp only [hp, if_false]
      rcases hres : trial_division number 5 with _ | _ | _
      · exact absurd hres (trial_division_ne_neither number 5)
      · rfl
      · exact absurd (hiff.1 hres) hp

/-! ## Facts about the checked vector accesses -/

theorem vec_write_ok {α : Type} (v : List α) (i : Nat) (x : α) (h : i < v.length) :
    vec_write v i x = Except.ok (v.set i x) := by
  simp [vec_write, h]

theorem vec_read_ok {α : Type} (v : List α) (i : Nat) (x : α) (h : v[i]? = some x) :
    vec_read v i = Except.ok x := by
  simp [vec_read, h]

/-! ## Facts about the marking phase of the sieve -/

/-- The inner loop, entered at `i` on an array of `ceiling + 1` entries, ends
without fault and sets to `COMPOSITE` exactly the entries `i`, `i + number`,
`i + 2 * number`, ... up to `ceiling`. -/
theorem strike_ok (ceiling number : Nat) (hpos : 0 < number) (i : Nat)
    (primality : List Primality) (hlen : primality.length = ceiling + 1) :
    ∃ primality1, strike ceiling number hpos i primality = Except.ok primality1 ∧
      primality1.length = ceiling + 1 ∧
      ∀ j, primality1[j]? =
        if i ≤ j ∧ j ≤ ceiling ∧ number ∣ (j - i) then some COMPOSITE else primality[j]? := by
  induction i, primality using strike.induct ceiling number hpos with
  | case1 i arr hi e he =>
    rw [vec_write_ok arr i COMPOSITE (by omega)] at he
    cases he
  | case2 i arr hi arr1 he ih =>
    rw [vec_write_ok arr i COMPOSITE (by omega)] at he
    injection he with he
    subst he
    obtain ⟨arr2, h1, h2, h3⟩ := ih (by simp [hlen])
    refine ⟨arr2, ?_, h2, ?_⟩
    · rw [strike]
      simp only [hi, if_true, vec_write_ok arr i COMPOSITE (by omega : i < arr.length)]
      exact h1
    · intro j
      rw [h3 j]
      by_cases hj : j = i
      · subst hj
        have : ¬ (j + number ≤ j ∧ j ≤ ceiling ∧ number ∣ (j - (j + number))) := by omega
        simp only [this, if_false]
        simp [hi, List.getElem?_set_self, hlen, Nat.lt_succ_of_le hi]
      · have hiff : (i + number ≤ j ∧ j ≤ ceiling ∧ number ∣ (j - (i + number))) ↔
            (i ≤ j ∧ j ≤ ceiling ∧ number ∣ (j - i)) := by
          constructor
          · rintro ⟨a, b, c⟩
            refine ⟨by omega, b, ?_⟩
            have e : j - i = (j - (i + number)) + number := by omega
            rw [e]
            exact Dvd.dvd.add c (dvd_refl number)
          · rintro ⟨a, b, c⟩
            have hlt : 0 < j - i := by omega
            have hle : number ≤ j - i := Nat.le_of_dvd hlt c
            refine ⟨by omega, b, ?_⟩
            have e : j - (i + number) = (j - i) - number := by omega
            rw [e]
            exact Nat.dvd_sub' c (dvd_refl number)
        have hne : i ≠ j := fun h => hj h.symm
        simp only [hiff, List.getElem?_set_ne hne]
  | case3 i arr hi =>
    refine ⟨arr, ?_, hlen, ?_⟩
    · rw [strike]; simp [hi]
    · intro j
      have : ¬ (i ≤ j ∧ j ≤ ceiling ∧ number ∣ (j - i)) := by omega
      simp [this]

theorem prime_of_not_struck (j : Nat) (h2 : 2 ≤ j) (h : ¬ struck j j) : Nat.Prime j := by
  by_contra hnp
  apply h
  have hp : Nat.Prime (Nat.minFac j) := Nat.minFac_prime (by omega)
  have hsq : Nat.minFac j * Nat.minFac j ≤ j := by
    have := Nat.minFac_sq_le_self (by omega : 0 < j) hnp
    simpa [sq] using this
  refine ⟨Nat.minFac j, hp, ?_, Nat.minFac_dvd j, hsq⟩
  have := hp.two_le
  nlinarith

theorem not_prime_of_struck (number j : Nat) (h : struck number j) : ¬ Nat.Prime j := by
  obtain ⟨p, hp, _, hdvd, hsq⟩ := h
  intro hj
  have h2 := hp.two_le
  rcases (Nat.dvd_prime hj).1 hdvd with h1 | h1
  · omega
  · subst h1; nlinarith

theorem struck_succ_of_prime (number j : Nat) (hp : Nat.Prime number) :
    struck (number + 1) j ↔ struck number j ∨ (number ∣ j ∧ number * number ≤ j) := by
  constructor
  · rintro ⟨p, h1, h2, h3, h4⟩
    by_cases e : p = number
    · subst e; exact Or.inr ⟨h3, h4⟩
    · exact Or.inl ⟨p, h1, by omega, h3, h4⟩
  · rintro (⟨p, h1, h2, h3, h4⟩ | ⟨h3, h4⟩)
    · exact ⟨p, h1, by omega, h3, h4⟩
    · exact ⟨number, hp, by omega, h3, h4⟩

theorem struck_succ_of_not_prime (number j : Nat) (hp : ¬ Nat.Prime number) :
    struck (number + 1) j ↔ struck number j := by
  constructor
  · rintro ⟨p, h1, h2, h3, h4⟩
    by_cases e : p = number
    · subst e; exact absurd h1 hp
    · exact ⟨p, h1, by omega, h3, h4⟩
  · rintro ⟨p, h1, h2, h3, h4⟩
    exact ⟨p, h1, by omega, h3, h4⟩

/-- The outer loop, entered at `number >= 2` with the invariant, ends without
fault, and leaves every entry from 2 on `PRIME` or `COMPOSITE` according to
whether its index is a prime number. -/
theorem mark_ok (ceiling number : Nat) (hpos : 0 < number) (primality : List Primality)
    (h2 : 2 ≤ number) (hinv : mark_inv ceiling number primality) :
    ∃ primality1, mark ceiling number hpos primality = Except.ok primality1 ∧
      primality1.length = ceiling + 1 ∧
      ∀ j, j ≤ ceiling → primality1[j]? =
        some (if j < 2 then NEITHER else if Nat.Prime j then PRIME else COMPOSITE) := by
  induction number, hpos, primality using mark.induct ceiling with
  | case1 n hpos arr hn e he =>
    exfalso
    have hle : n ≤ ceiling := le_trans (Nat.le_mul_self n) hn
    by_cases hs : struck n n
    · rw [vec_read_ok arr n _ ((hinv.2 n hle).2.1 h2 hs)] at he; cases he
    · rw [vec_read_ok arr n _ ((hinv.2 n hle).2.2 h2 hs)] at he; cases he
  | case2 n hpos arr hn e he hr =>
    exfalso
    obtain ⟨arr1, h1, _⟩ := strike_ok ceiling n hpos (n * n) arr hinv.1
    rw [h1] at he; cases he
  | case3 n hpos arr hn arr1 hs hr ih =>
    have hle : n ≤ ceiling := le_trans (Nat.le_mul_self n) hn
    have hns : ¬ struck n n := by
      intro hs1
      rw [vec_read_ok arr n _ ((hinv.2 n hle).2.1 h2 hs1)] at hr
      cases hr
    have hp : Nat.Prime n := prime_of_not_struck n h2 hns
    obtain ⟨arr2, e1, e2, e3⟩ := strike_ok ceiling n hpos (n * n) arr hinv.1
    rw [e1] at hs
    injection hs with hs
    subst hs
    have hinv1 : mark_inv ceiling (n + 1) arr2 := by
      refine ⟨e2, fun j hj => ⟨?_, ?_, ?_⟩⟩
      · intro hj2
        have : ¬ (n * n ≤ j ∧ j ≤ ceiling ∧ n ∣ (j - n * n)) := by
          have : 2 * 2 ≤ n * n := Nat.mul_le_mul h2 h2
          omega
        rw [e3 j]; simp only [this, if_false]
        exact (hinv.2 j hj).1 hj2
      · intro hj2 hst
        rw [e3 j]
        split
        · rfl
        · rename_i hc
          rcases (struck_succ_of_prime n j hp).1 hst with h | ⟨hd, hsq⟩
          · exact (hinv.2 j hj).2.1 hj2 h
          · exfalso
            apply hc
            exact ⟨hsq, hj, (Nat.dvd_sub' hd (Dvd.intro n rfl))⟩
      · intro hj2 hst
        rw [e3 j]
        have hnot := fun h => hst ((struck_succ_of_prime n j hp).2 h)
        have hc : ¬ (n * n ≤ j ∧ j ≤ ceiling ∧ n ∣ (j - n * n)) := by
          rintro ⟨a, b, c⟩
          apply hnot
          refine Or.inr ⟨?_, a⟩
          have e : j = (j - n * n) + n * n := by omega
          rw [e]
          exact Dvd.dvd.add c (Dvd.intro n rfl)
        simp only [hc, if_false]
        exact (hinv.2 j hj).2.2 hj2 (fun h => hnot (Or.inl h))
    obtain ⟨arr3, f1, f2, f3⟩ := ih (by omega) hinv1
    refine ⟨arr3, ?_, f2, f3⟩
    rw [mark]
    simp only [hn, if_true, hr, e1]
    exact f1
  | case4 n hpos arr hn m hr hm ih =>
    have hle : n ≤ ceiling := le_trans (Nat.le_mul_self n) hn
    have hs : struck n n := by
      by_contra hs1
      rw [vec_read_ok arr n _ ((hinv.2 n hle).2.2 h2 hs1)] at hr
      injection hr with hr
      exact hm hr.symm
    have hnp : ¬ Nat.Prime n := not_prime_of_struck n n hs
    have hinv1 : mark_inv ceiling (n + 1) arr := by
      refine ⟨hinv.1, fun j hj => ⟨(hinv.2 j hj).1, ?_, ?_⟩⟩
      · intro hj2 hst
        exact (hinv.2 j hj).2.1 hj2 ((struck_succ_of_not_prime n j hnp).1 hst)
      · intro hj2 hst
        exact (hinv.2 j hj).2.2 hj2 (fun h => hst ((struck_succ_of_not_prime n j hnp).2 h))
    obtain ⟨arr3, f1, f2, f3⟩ := ih (by omega) hinv1
    refine ⟨arr3, ?_, f2, f3⟩
    rw [mark]
    simp only [hn, if_true, hr, hm, if_false]
    exact f1
  | case5 n hpos arr hn =>
    refine ⟨arr, ?_, hinv.1, ?_⟩
    · rw [mark]; simp [hn]
    · intro j hj
      by_cases hj2 : j < 2
      · simp only [hj2, if_true]; exact (hinv.2 j hj).1 hj2
      · simp only [hj2, if_false]
        by_cases hp : Nat.Prime j
        · simp only [hp, if_true]
          exact (hinv.2 j hj).2.2 (by omega) (fun hs => not_prime_of_struck n j hs hp)
        · simp only [hp, if_false]
          apply (hinv.2 j hj).2.1 (by omega)
          by_contra hs
          apply hp
          apply prime_of_not_struck j (by omega)
          rintro ⟨p, p1, p2, p3, p4⟩
          apply hs
          refine ⟨p, p1, ?_, p3, p4⟩
          by_contra hlt
          have : n ≤ p := by omega
          have : n * n ≤ p * p := Nat.mul_le_mul this this
          omega

/-- The array after the two initial assignments satisfies the invariant of the
marking loop at `number = 2`. -/
theorem mark_inv_init (ceiling : Nat) :
    mark_inv ceiling 2 (((List.replicate (ceiling + 1) PRIME).set 1 NEITHER).set 0 NEITHER) := by
  have hns : ∀ j, ¬ struck 2 j := by
    rintro j ⟨p, hp, hlt, _, _⟩
    have := hp.two_le
    omega
  refine ⟨by simp, fun j hj => ⟨?_, ?_, ?_⟩⟩
  · intro hj2
    rcases Nat.eq_zero_or_pos j with h0 | h0
    · subst h0; simp
    · have : j = 1 := by omega
      subst this
      simp [List.getElem?_set]
      omega
  · intro _ hs
    exact absurd hs (hns j)
  · intro hj2 _
    rw [List.getElem?_set_ne (by omega), List.getElem?_set_ne (by omega)]
    simp [List.getElem?_replicate]
    omega

/-! ## Facts about the collecting phase of the sieve -/

/-- The collecting loop, entered at `number` on an array of `ceiling + 1`
entries, ends without fault and appends to `primes` the indices from `number`
to `ceiling` whose entry is `PRIME`, in ascending order. -/
theorem collect_ok (ceiling number : Nat) (primality : List Primality) (primes : List Nat)
    (hlen : primality.length = ceiling + 1) :
    collect ceiling number primality primes =
      Except.ok (primes ++ (List.range' number (ceiling + 1 - number)).filter
        (fun j => decide (primality[j]? = some PRIME))) := by
  induction number, primality, primes using collect.induct ceiling with
  | case1 n arr ps hn e he =>
    exfalso
    have hlt : n < arr.length := by omega
    rw [vec_read_ok arr n arr[n] (List.getElem?_eq_getElem hlt)] at he
    cases he
  | case2 n arr ps hn hr ih =>
    have hget : arr[n]? = some PRIME := by
      have hlt : n < arr.length := by omega
      rw [vec_read_ok arr n arr[n] (List.getElem?_eq_getElem hlt)] at hr
      injection hr with hr
      rw [List.getElem?_eq_getElem hlt, hr]
    rw [collect]
    simp only [hn, if_true, hr]
    rw [ih hlen]
    have e : ceiling + 1 - n = (ceiling + 1 - (n + 1)) + 1 := by omega
    rw [e, List.range'_succ]
    simp [List.filter_cons, hget]
  | case3 n arr ps hn m hr hm ih =>
    have hget : arr[n]? ≠ some PRIME := by
      have hlt : n < arr.length := by omega
      rw [vec_read_ok arr n arr[n] (List.getElem?_eq_getElem hlt)] at hr
      injection hr with hr
      rw [List.getElem?_eq_getElem hlt, hr]
      intro h
      injection h with h
      exact hm h
    rw [collect]
    simp only [hn, if_true, hr, hm, if_false]
    rw [ih hlen]
    have e : ceiling + 1 - n = (ceiling + 1 - (n + 1)) + 1 := by omega
    rw [e, List.range'_succ]
    simp [List.filter_cons, hget]
  | case4 n arr ps hn =>
    rw [collect]
    have e : ceiling + 1 - n = 0 := by omega
    simp [hn, e]

theorem primes_upto_eq_range' (ceiling : Nat) (h : 1 ≤ ceiling) :
    primes_upto ceiling =
      (List.range' 2 (ceiling + 1 - 2)).filter (fun p => decide (Nat.Prime p)) := by
  have e : ceiling + 1 = (ceiling + 1 - 2) + 1 + 1 := by omega
  unfold primes_upto
  rw [List.range_eq_range']
  conv_lhs => rw [e, List.range'_succ, List.range'_succ]
  have h0 : ¬ Nat.Prime 0 := Nat.not_prime_zero
  have h1 : ¬ Nat.Prime 1 := Nat.not_prime_one
  simp [List.filter_cons, h0, h1]

/-- Closed form of the sieve: from ceiling 1 on, a call ends without fault and
appends the ascending list of the primes up to the ceiling to the vector it is
given. -/
theorem sieve_of_eratosthenes_eq (ceiling : Nat) (primes : List Nat) (h : 1 ≤ ceiling) :
    sieve_of_eratosthenes ceiling primes = Except.ok (primes ++ primes_upto ceiling) := by
  obtain ⟨arr, h1, h2, h3⟩ := mark_ok ceiling 2 (Nat.succ_pos 1) _ (le_refl 2)
    (mark_inv_init ceiling)
  unfold sieve_of_eratosthenes
  rw [vec_write_ok _ 1 NEITHER (by simp; omega)]
  simp only
  rw [vec_write_ok _ 0 NEITHER (by simp)]
  simp only [h1]
  rw [collect_ok ceiling 2 arr primes h2, primes_upto_eq_range' ceiling h]
  congr 2
  apply List.filter_congr
  intro j hj
  rw [List.mem_range'_1] at hj
  have hj2 : ¬ j < 2 := by omega
  rw [h3 j (by omega)]
  simp only [hj2, if_false]
  by_cases hp : Nat.Prime j <;> simp [hp]

theorem mem_primes_upto (ceiling p : Nat) :
    p ∈ primes_upto ceiling ↔ Nat.Prime p ∧ p ≤ ceiling := by
  simp [primes_upto, Nat.lt_succ_iff, and_comm]

theorem primes_upto_sorted (ceiling : Nat) :
    (primes_upto ceiling).Pairwise (fun a b => a < b) := by
  unfold primes_upto
  exact List.Pairwise.sublist (List.filter_sublist _) (List.pairwise_lt_range _)

theorem length_primes_upto (ceiling : Nat) :
    (primes_upto ceiling).length = Nat.count Nat.Prime (ceiling + 1) := by
  unfold primes_upto
  rw [Nat.count_eq_card_filter_range, ← List.countP_eq_length_filter]
  rw [← Nat.count_eq_card_filter_range]
  rfl

/-! ## Facts about the prime table and the N-th prime -/

/-- Entry `k` (0-based) of the ascending list of the numbers below `n` that
satisfy `p` is the `k`-th number that satisfies `p`. -/
theorem getElem?_filter_range (p : Nat → Prop) [DecidablePred p] (n k : Nat)
    (hk : k < Nat.count p n) :
    ((List.range n).filter (fun x => decide (p x)))[k]? = some (Nat.nth p k) := by
  induction n with
  | zero => simp at hk
  | succ n ih =>
    have hlen : ((List.range n).filter (fun x => decide (p x))).length = Nat.count p n := by
      rw [← List.countP_eq_length_filter]; rfl
    rw [List.range_succ, List.filter_append]
    by_cases hlt : k < Nat.count p n
    · rw [List.getElem?_append_left (by rw [hlen]; exact hlt)]
      exact ih hlt
    · rw [Nat.count_succ] at hk
      have hpn : p n := by
        by_contra hpn
        simp [hpn] at hk
        exact hlt hk
      have hkeq : k = Nat.count p n := by
        simp [hpn] at hk
        omega
      rw [List.getElem?_append_right (by rw [hlen]; omega)]
      simp [hlen, hkeq, hpn, Nat.nth_count hpn]

theorem getElem?_primes_upto (ceiling k : Nat) (hk : k < (primes_upto ceiling).length) :
    (primes_upto ceiling)[k]? = some (Nat.nth Nat.Prime k) := by
  rw [length_primes_upto] at hk
  exact getElem?_filter_range Nat.Prime (ceiling + 1) k hk

/-- The table built from `ceiling` has at least `index` entries exactly when
the `index`-th prime is at most `ceiling`. -/
theorem le_length_primes_upto_iff (ceiling index : Nat) (h : 1 ≤ index) :
    index ≤ (primes_upto ceiling).length ↔ Nat.nth Nat.Prime (index - 1) ≤ ceiling := by
  rw [length_primes_upto]
  have := @Nat.lt_nth_iff_count_lt Nat.Prime _ Nat.infinite_setOf_prime (index - 1) (ceiling + 1)
  omega

/-! ## Facts about the retry loop of find_nth_term -/

/-- The wrapping subtraction `index - 1` is the exact one for an index from 1
on that fits the type. -/
theorem index_pred_wrap (w index : Nat) (h1 : 1 ≤ index) (hw : index < 2 ^ w) :
    (index + 2 ^ w - 1) % 2 ^ w = index - 1 := by
  have e : index + 2 ^ w - 1 = (index - 1) + 2 ^ w := by omega
  rw [e, Nat.add_mod_right, Nat.mod_eq_of_lt (by omega)]

/-- One iteration of the loop that starts from an empty vector: when the table
built from the ceiling has `index` entries, the check succeeds and the loop ends
with the read at position `index - 1`. -/
theorem find_nth_loop_hit (w index ceiling_estimate fuel ceiling_min : Nat)
    (hc : 1 ≤ max ceiling_estimate ceiling_min)
    (hlen : index ≤ (primes_upto (max ceiling_estimate ceiling_min)).length) :
    find_nth_loop w index ceiling_estimate (fuel + 1) ceiling_min [] =
      some (vec_read (primes_upto (max ceiling_estimate ceiling_min))
        ((index + 2 ^ w - 1) % 2 ^ w)) := by
  rw [find_nth_loop]
  simp only [sieve_of_eratosthenes_eq _ [] hc, List.nil_append, hlen, if_true]

/-- One iteration of the loop that starts from an empty vector: when the table
built from the ceiling has fewer than `index` entries, the check fails, the
vector is cleared and the loop goes on with 1.25 times the ceiling as the new
minimum. -/
theorem find_nth_loop_miss (w index ceiling_estimate fuel ceiling_min : Nat)
    (hc : 1 ≤ max ceiling_estimate ceiling_min)
    (hlen : ¬ index ≤ (primes_upto (max ceiling_estimate ceiling_min)).length) :
    find_nth_loop w index ceiling_estimate (fuel + 1) ceiling_min [] =
      find_nth_loop w index ceiling_estimate fuel
        (max ceiling_estimate ceiling_min * 5 / 4) [] := by
  rw [find_nth_loop]
  simp only [sieve_of_eratosthenes_eq _ [] hc, List.nil_append, hlen, if_false]

/-- The read that ends the loop gives the `index`-th prime. -/
theorem vec_read_primes_upto (w index ceiling : Nat) (h1 : 1 ≤ index) (hw : index < 2 ^ w)
    (hlen : index ≤ (primes_upto ceiling).length) :
    vec_read (primes_upto ceiling) ((index + 2 ^ w - 1) % 2 ^ w) =
      Except.ok (Nat.nth Nat.Prime (index - 1)) := by
  rw [index_pred_wrap w index h1 hw]
  exact vec_read_ok _ _ _ (getElem?_primes_upto _ _ (by omega))

/-- With enough iterations allowed, the loop ends in an iteration whose ceiling
reaches the `index`-th prime, with the read at position `index - 1` of the table
built from that ceiling. -/
theorem find_nth_loop_enough (w index ceiling_estimate : Nat) (h1 : 1 ≤ index) (fuel : Nat) :
    ∀ ceiling_min, 15 ≤ ceiling_min →
      Nat.nth Nat.Prime (index - 1) ≤ ceiling_min + 3 * fuel →
      ∃ ceiling, 15 ≤ ceiling ∧ index ≤ (primes_upto ceiling).length ∧
        find_nth_loop w index ceiling_estimate (fuel + 1) ceiling_min [] =
          some (vec_read (primes_upto ceiling) ((index + 2 ^ w - 1) % 2 ^ w)) := by
  induction fuel with
  | zero =>
    intro cmin hmin hp
    have hmax := le_max_right ceiling_estimate cmin
    have hlen := (le_length_primes_upto_iff (max ceiling_estimate cmin) index h1).2 (by omega)
    exact ⟨_, by omega, hlen, find_nth_loop_hit w index ceiling_estimate 0 cmin (by omega) hlen⟩
  | succ fuel ih =>
    intro cmin hmin hp
    have hmax := le_max_right ceiling_estimate cmin
    by_cases hlen : index ≤ (primes_upto (max ceiling_estimate cmin)).length
    · exact ⟨_, by omega, hlen,
        find_nth_loop_hit w index ceiling_estimate (fuel + 1) cmin (by omega) hlen⟩
    · rw [find_nth_loop_miss w index ceiling_estimate (fuel + 1) cmin (by omega) hlen]
      apply ih
      · omega
      · omega

/-- However many iterations are allowed, the loop either is still running or
has read the `index`-th prime. -/
theorem find_nth_loop_sound (w index ceiling_estimate : Nat)
    (h1 : 1 ≤ index) (hw : index < 2 ^ w) (fuel : Nat) :
    ∀ ceiling_min, 1 ≤ ceiling_min →
      find_nth_loop w index ceiling_estimate fuel ceiling_min [] = none ∨
      find_nth_loop w index ceiling_estimate fuel ceiling_min [] =
        some (Except.ok (Nat.nth Nat.Prime (index - 1))) := by
  induction fuel with
  | zero => intro cmin _; left; rfl
  | succ fuel ih =>
    intro cmin hmin
    have hmax := le_max_right ceiling_estimate cmin
    by_cases hlen : index ≤ (primes_upto (max ceiling_estimate cmin)).length
    · right
      rw [find_nth_loop_hit w index ceiling_estimate fuel cmin (by omega) hlen]
      rw [vec_read_primes_upto w index _ h1 hw hlen]
    · rw [find_nth_loop_miss w index ceiling_estimate fuel cmin (by omega) hlen]
      apply ih
      omega

/-- For an index from 1 on that fits the type, the function reports the
`index`-th prime as soon as `nth prime + 1` iterations are allowed, whatever the
estimate. -/
theorem find_nth_term_eq (w index ceiling_estimate fuel : Nat) (h1 : 1 ≤ index)
    (hw : index < 2 ^ w) (hfuel : Nat.nth Nat.Prime (index - 1) + 1 ≤ fuel) :
    find_nth_term w fuel index ceiling_estimate =
      some (Except.ok (Nat.nth Nat.Prime (index - 1))) := by
  obtain ⟨k, rfl⟩ : ∃ k, fuel = k + 1 := ⟨fuel - 1, by omega⟩
  obtain ⟨c, _, hlen, hres⟩ := find_nth_loop_enough w index ceiling_estimate h1 k 15
    (le_refl 15) (by omega)
  unfold find_nth_term
  rw [hres, vec_read_primes_upto w index c h1 hw hlen]

/-! ## The instrumented sieve computes what the sieve computes -/

theorem strike_traced_snd (ceiling number : Nat) (hpos : 0 < number) (i : Nat)
    (primality : List Primality) :
    (strike_traced ceiling number hpos i primality).2 =
      strike ceiling number hpos i primality := by
  induction i, primality using strike.induct ceiling number hpos with
  | case1 i arr hi e he => rw [strike_traced, strike]; simp [hi, he]
  | case2 i arr hi arr1 he ih => rw [strike_traced, strike]; simp [hi, he, ih]
  | case3 i arr hi => rw [strike_traced, strike]; simp [hi]

theorem mark_traced_snd (ceiling number : Nat) (hpos : 0 < number)
    (primality : List Primality) :
    (mark_traced ceiling number hpos primality).2 = mark ceiling number hpos primality := by
  induction number, hpos, primality using mark.induct ceiling with
  | case1 n hpos arr hn e he => rw [mark_traced, mark]; simp [hn, he]
  | case2 n hpos arr hn e he hr =>
    rw [mark_traced, mark]
    simp [hn, hr, strike_traced_snd, he]
  | case3 n hpos arr hn arr1 hs hr ih =>
    rw [mark_traced, mark]
    simp [hn, hr, strike_traced_snd, hs, ih]
  | case4 n hpos arr hn m hr hm ih =>
    rw [mark_traced, mark]
    simp [hn, hr, hm, ih]
  | case5 n hpos arr hn => rw [mark_traced, mark]; simp [hn]

theorem collect_traced_snd (ceiling number : Nat) (primality : List Primality)
    (primes : List Nat) :
    (collect_traced ceiling number primality primes).2 =
      collect ceiling number primality primes := by
  induction number, primality, primes using collect.induct ceiling with
  | case1 n arr ps hn e he => rw [collect_traced, collect]; simp [hn, he]
  | case2 n arr ps hn hr ih => rw [collect_traced, collect]; simp [hn, hr, ih]
  | case3 n arr ps hn m hr hm ih => rw [collect_traced, collect]; simp [hn, hr, hm, ih]
  | case4 n arr ps hn => rw [collect_traced, collect]; simp [hn]

/-- The second component of the instrumented sieve is the sieve. -/
theorem sieve_traced_snd (ceiling : Nat) (primes : List Nat) :
    (sieve_traced ceiling primes).2 = sieve_of_eratosthenes ceiling primes := by
  unfold sieve_traced sieve_of_eratosthenes
  cases h1 : vec_write (List.replicate (ceiling + 1) PRIME) 1 NEITHER with
  | error e => rfl
  | ok a1 =>
    simp only
    cases h2 : vec_write a1 0 NEITHER with
    | error e => rfl
    | ok a2 =>
      simp only
      rw [← mark_traced_snd]
      cases h3 : (mark_traced ceiling 2 (Nat.succ_pos 1) a2).2 with
      | error e => rfl
      | ok a3 => simp only [collect_traced_snd]

/-! ## What the instrumented sieve records -/

/-- The body of the marking loop keeps the invariant when the entry of `number`
is `PRIME` and its multiples are struck from `number * number` on. -/
theorem mark_inv_strike (ceiling number : Nat) (hpos : 0 < number)
    (primality primality1 : List Primality) (h2 : 2 ≤ number)
    (hinv : mark_inv ceiling number primality) (hn : number * number ≤ ceiling)
    (hr : primality[number]? = some PRIME)
    (hs : strike ceiling number hpos (number * number) primality = Except.ok primality1) :
    mark_inv ceiling (number + 1) primality1 := by
  have hle : number ≤ ceiling := le_trans (Nat.le_mul_self number) hn
  have hns : ¬ struck number number := by
    intro hs1
    have := (hinv.2 number hle).2.1 h2 hs1
    rw [hr] at this
    cases this
  have hp : Nat.Prime number := prime_of_not_struck number h2 hns
  obtain ⟨arr2, e1, e2, e3⟩ := strike_ok ceiling number hpos (number * number) primality hinv.1
  rw [e1] at hs
  injection hs with hs
  subst hs
  refine ⟨e2, fun j hj => ⟨?_, ?_, ?_⟩⟩
  · intro hj2
    have : ¬ (number * number ≤ j ∧ j ≤ ceiling ∧ number ∣ (j - number * number)) := by
      have : 2 * 2 ≤ number * number := Nat.mul_le_mul h2 h2
      omega
    rw [e3 j]; simp only [this, if_false]
    exact (hinv.2 j hj).1 hj2
  · intro hj2 hst
    rw [e3 j]
    split
    · rfl
    · rename_i hc
      rcases (struck_succ_of_prime number j hp).1 hst with h | ⟨hd, hsq⟩
      · exact (hinv.2 j hj).2.1 hj2 h
      · exfalso
        apply hc
        exact ⟨hsq, hj, (Nat.dvd_sub' hd (Dvd.intro number rfl))⟩
  · intro hj2 hst
    rw [e3 j]
    have hnot := fun h => hst ((struck_succ_of_prime number j hp).2 h)
    have hc : ¬ (number * number ≤ j ∧ j ≤ ceiling ∧ number ∣ (j - number * number)) := by
      rintro ⟨a, b, c⟩
      apply hnot
      refine Or.inr ⟨?_, a⟩
      have e : j = (j - number * number) + number * number := by omega
      rw [e]
      exact Dvd.dvd.add c (Dvd.intro number rfl)
    simp only [hc, if_false]
    exact (hinv.2 j hj).2.2 hj2 (fun h => hnot (Or.inl h))

/-- The body of the marking loop keeps the invariant when the entry of `number`
is not `PRIME` and nothing is struck. -/
theorem mark_inv_skip (ceiling number : Nat) (primality : List Primality) (m : Primality)
    (h2 : 2 ≤ number) (hinv : mark_inv ceiling number primality)
    (hn : number * number ≤ ceiling) (hr : primality[number]? = some m) (hm : m ≠ PRIME) :
    mark_inv ceiling (number + 1) primality := by
  have hle : number ≤ ceiling := le_trans (Nat.le_mul_self number) hn
  have hs : struck number number := by
    by_contra hs1
    have := (hinv.2 number hle).2.2 h2 hs1
    rw [hr] at this
    injection this with this
    exact hm this
  have hnp : ¬ Nat.Prime number := not_prime_of_struck number number hs
  refine ⟨hinv.1, fun j hj => ⟨(hinv.2 j hj).1, ?_, ?_⟩⟩
  · intro hj2 hst
    exact (hinv.2 j hj).2.1 hj2 ((struck_succ_of_not_prime number j hnp).1 hst)
  · intro hj2 hst
    exact (hinv.2 j hj).2.2 hj2 (fun h => hst ((struck_succ_of_not_prime number j hnp).2 h))

theorem vec_read_eq_ok {α : Type} (v : List α) (i : Nat) (x : α)
    (h : vec_read v i = Except.ok x) : v[i]? = some x := by
  unfold vec_read at h
  cases hv : v[i]? with
  | none => rw [hv] at h; cases h
  | some y => rw [hv] at h; injection h with h; rw [h]

/-- Every access of the inner marking loop is inside the array. -/
theorem strike_traced_events (ceiling number : Nat) (hpos : 0 < number) (i : Nat)
    (primality : List Primality) (hlen : primality.length = ceiling + 1) :
    ∀ e ∈ (strike_traced ceiling number hpos i primality).1,
      ∃ j, e = Event.access j (ceiling + 1) ∧ j ≤ ceiling := by
  induction i, primality using strike.induct ceiling number hpos with
  | case1 i arr hi e he =>
    rw [vec_write_ok arr i COMPOSITE (by omega)] at he
    cases he
  | case2 i arr hi arr1 he ih =>
    have hlen1 : arr1.length = ceiling + 1 := by
      rw [vec_write_ok arr i COMPOSITE (by omega)] at he
      injection he with he
      subst he
      simp [hlen]
    rw [strike_traced]
    simp only [hi, if_true, he]
    intro e hmem
    rcases List.mem_cons.1 hmem with h | h
    · exact ⟨i, by rw [h, hlen], hi⟩
    · exact ih hlen1 e h
  | case3 i arr hi =>
    rw [strike_traced]
    simp [hi]

/-- Every access of the collecting loop is inside the array. -/
theorem collect_traced_events (ceiling number : Nat) (primality : List Primality)
    (primes : List Nat) (hlen : primality.length = ceiling + 1) :
    ∀ e ∈ (collect_traced ceiling number primality primes).1,
      ∃ j, e = Event.access j (ceiling + 1) ∧ j ≤ ceiling := by
  induction number, primality, primes using collect.induct ceiling with
  | case1 n arr ps hn e he =>
    exfalso
    have hlt : n < arr.length := by omega
    rw [vec_read_ok arr n arr[n] (List.getElem?_eq_getElem hlt)] at he
    cases he
  | case2 n arr ps hn hr ih =>
    rw [collect_traced]
    simp only [hn, if_true, hr]
    intro e hmem
    rcases List.mem_cons.1 hmem with h | h
    · exact ⟨n, by rw [h, hlen], hn⟩
    · exact ih hlen e h
  | case3 n arr ps hn m hr hm ih =>
    rw [collect_traced]
    simp only [hn, if_true, hr, hm, if_false]
    intro e hmem
    rcases List.mem_cons.1 hmem with h | h
    · exact ⟨n, by rw [h, hlen], hn⟩
    · exact ih hlen e h
  | case4 n arr ps hn =>
    rw [collect_traced]
    simp [hn]

/-- What the marking loop records, when entered at `number >= 2` with the
invariant: accesses inside the array, and loop heads that satisfy the
invariant. -/
theorem mark_traced_events (ceiling number : Nat) (hpos : 0 < number)
    (primality : List Primality) (h2 : 2 ≤ number)
    (hinv : mark_inv ceiling number primality) :
    ∀ e ∈ (mark_traced ceiling number hpos primality).1,
      (∃ j, e = Event.access j (ceiling + 1) ∧ j ≤ ceiling) ∨
      (∃ p a, e = Event.head p a ∧ 2 ≤ p ∧ p * p ≤ ceiling ∧ mark_inv ceiling p a) := by
  induction number, hpos, primality using mark.induct ceiling with
  | case1 n hpos arr hn e he =>
    exfalso
    have hle : n ≤ ceiling := le_trans (Nat.le_mul_self n) hn
    by_cases hs : struck n n
    · rw [vec_read_ok arr n _ ((hinv.2 n hle).2.1 h2 hs)] at he; cases he
    · rw [vec_read_ok arr n _ ((hinv.2 n hle).2.2 h2 hs)] at he; cases he
  | case2 n hpos arr hn e he hr =>
    exfalso
    obtain ⟨arr1, h1, _⟩ := strike_ok ceiling n hpos (n * n) arr hinv.1
    rw [h1] at he; cases he
  | case3 n hpos arr hn arr1 hs hr ih =>
    have hle : n ≤ ceiling := le_trans (Nat.le_mul_self n) hn
    have hinv1 := mark_inv_strike ceiling n hpos arr arr1 h2 hinv hn
      (vec_read_eq_ok arr n PRIME hr) hs
    have hs2 : (strike_traced ceiling n hpos (n * n) arr).2 = Except.ok arr1 := by
      rw [strike_traced_snd, hs]
    rw [mark_traced]
    simp only [hn, if_true, hr, hs2]
    intro e hmem
    rcases List.mem_cons.1 hmem with h | hmem
    · exact Or.inr ⟨n, arr, h, h2, hn, hinv⟩
    rcases List.mem_cons.1 hmem with h | hmem
    · exact Or.inl ⟨n, by rw [h, hinv.1], hle⟩
    rcases List.mem_append.1 hmem with h | h
    · exact Or.inl (strike_traced_events ceiling n hpos (n * n) arr hinv.1 e h)
    · exact ih (by omega) hinv1 e h
  | case4 n hpos arr hn m hr hm ih =>
    have hle : n ≤ ceiling := le_trans (Nat.le_mul_self n) hn
    have hinv1 := mark_inv_skip ceiling n arr m h2 hinv hn (vec_read_eq_ok arr n m hr) hm
    rw [mark_traced]
    simp only [hn, if_true, hr, hm, if_false]
    intro e hmem
    rcases List.mem_cons.1 hmem with h | hmem
    · exact Or.inr ⟨n, arr, h, h2, hn, hinv⟩
    rcases List.mem_cons.1 hmem with h | hmem
    · exact Or.inl ⟨n, by rw [h, hinv.1], hle⟩
    · exact ih (by omega) hinv1 e hmem
  | case5 n hpos arr hn =>
    rw [mark_traced]
    simp [hn]

/-- What the sieve records, from ceiling 1 on: accesses inside the array of
`ceiling + 1` entries, and heads of the marking loop that satisfy its
invariant. -/
theorem sieve_traced_events (ceiling : Nat) (primes : List Nat) (hc : 1 ≤ ceiling) :
    ∀ e ∈ (sieve_traced ceiling primes).1,
      (∃ j, e = Event.access j (ceiling + 1) ∧ j ≤ ceiling) ∨
      (∃ p a, e = Event.head p a ∧ 2 ≤ p ∧ p * p ≤ ceiling ∧ mark_inv ceiling p a) := by
  obtain ⟨arr, h1, h2, _⟩ := mark_ok ceiling 2 (Nat.succ_pos 1) _ (le_refl 2)
    (mark_inv_init ceiling)
  have hm : (mark_traced ceiling 2 (Nat.succ_pos 1)
      (((List.replicate (ceiling + 1) PRIME).set 1 NEITHER).set 0 NEITHER)).2 =
      Except.ok arr := by
    rw [mark_traced_snd, h1]
  unfold sieve_traced
  rw [vec_write_ok _ 1 NEITHER (by simp; omega)]
  simp only
  rw [vec_write_ok _ 0 NEITHER (by simp)]
  simp only [hm]
  intro e hmem
  rcases List.mem_cons.1 hmem with h | hmem
  · exact Or.inl ⟨1, h, hc⟩
  rcases List.mem_cons.1 hmem with h | hmem
  · exact Or.inl ⟨0, by rw [h]; simp, Nat.zero_le _⟩
  rcases List.mem_append.1 hmem with h | h
  · exact mark_traced_events ceiling 2 (Nat.succ_pos 1) _ (le_refl 2) (mark_inv_init ceiling) e h
  · exact Or.inl (collect_traced_events ceiling 2 arr primes h2 e h)

/-! ## Facts about the prime table for two ceilings -/

/-- The second component of the instrumented loop is the loop. -/
theorem find_nth_loop_traced_snd (w index ceiling_estimate fuel : Nat) :
    ∀ ceiling_min primes,
      (find_nth_loop_traced w index ceiling_estimate fuel ceiling_min primes).2 =
        find_nth_loop w index ceiling_estimate fuel ceiling_min primes := by
  induction fuel with
  | zero => intro cmin ps; rfl
  | succ fuel ih =>
    intro cmin ps
    rw [find_nth_loop_traced, find_nth_loop]
    cases hs : sieve_of_eratosthenes (max ceiling_estimate cmin) ps with
    | error e => rfl
    | ok ps1 =>
      simp only
      by_cases hlen : index ≤ ps1.length
      · simp only [hlen, if_true]
      · simp only [hlen, if_false]
        exact ih _ _

/-- One iteration of the instrumented loop in which the check succeeds. -/
theorem find_nth_loop_traced_hit (w index ceiling_estimate fuel ceiling_min : Nat)
    (hc : 1 ≤ max ceiling_estimate ceiling_min)
    (hlen : index ≤ (primes_upto (max ceiling_estimate ceiling_min)).length) :
    find_nth_loop_traced w index ceiling_estimate (fuel + 1) ceiling_min [] =
      ([max ceiling_estimate ceiling_min],
        some (vec_read (primes_upto (max ceiling_estimate ceiling_min))
          ((index + 2 ^ w - 1) % 2 ^ w))) := by
  rw [find_nth_loop_traced]
  simp only [sieve_of_eratosthenes_eq _ [] hc, List.nil_append, hlen, if_true]

/-- One iteration of the instrumented loop in which the check fails. -/
theorem find_nth_loop_traced_miss (w index ceiling_estimate fuel ceiling_min : Nat)
    (hc : 1 ≤ max ceiling_estimate ceiling_min)
    (hlen : ¬ index ≤ (primes_upto (max ceiling_estimate ceiling_min)).length) :
    find_nth_loop_traced w index ceiling_estimate (fuel + 1) ceiling_min [] =
      (max ceiling_estimate ceiling_min ::
        (find_nth_loop_traced w index ceiling_estimate fuel
          (max ceiling_estimate ceiling_min * 5 / 4) []).1,
       (find_nth_loop_traced w index ceiling_estimate fuel
          (max ceiling_estimate ceiling_min * 5 / 4) []).2) := by
  rw [find_nth_loop_traced]
  simp only [sieve_of_eratosthenes_eq _ [] hc, List.nil_append, hlen, if_false]

/-- The ceilings recorded by the loop entered with a minimum of at least 15:
the first is `max(estimate, minimum)`, each is at least 15, and each next one
is 1.25 times the one before it, rounded down, and greater than it. -/
theorem find_nth_loop_traced_ceilings (w index ceiling_estimate fuel : Nat) :
    ∀ ceiling_min, 15 ≤ ceiling_min →
      (∀ c ∈ (find_nth_loop_traced w index ceiling_estimate fuel ceiling_min []).1.head?,
        c = max ceiling_estimate ceiling_min) ∧
      (1 ≤ fuel → (find_nth_loop_traced w index ceiling_estimate fuel ceiling_min []).1 ≠ []) ∧
      (∀ c ∈ (find_nth_loop_traced w index ceiling_estimate fuel ceiling_min []).1, 15 ≤ c) ∧
      List.Chain' (fun c d => d = c * 5 / 4 ∧ c < d)
        (find_nth_loop_traced w index ceiling_estimate fuel ceiling_min []).1 := by
  induction fuel with
  | zero =>
    intro cmin _
    simp [find_nth_loop_traced]
  | succ fuel ih =>
    intro cmin hmin
    have hmax := le_max_right ceiling_estimate cmin
    have hest := le_max_left ceiling_estimate cmin
    by_cases hlen : index ≤ (primes_upto (max ceiling_estimate cmin)).length
    · rw [find_nth_loop_traced_hit w index ceiling_estimate fuel cmin (by omega) hlen]
      refine ⟨by simp, by simp, ?_, by simp⟩
      intro c hc
      simp only [List.mem_singleton] at hc
      omega
    · rw [find_nth_loop_traced_miss w index ceiling_estimate fuel cmin (by omega) hlen]
      obtain ⟨ih1, _, ih3, ih4⟩ := ih (max ceiling_estimate cmin * 5 / 4) (by omega)
      have hnext : max ceiling_estimate (max ceiling_estimate cmin * 5 / 4) =
          max ceiling_estimate cmin * 5 / 4 := max_eq_right (by omega)
      refine ⟨by simp, by simp, ?_, ?_⟩
      · intro c hc
        rcases List.mem_cons.1 hc with h | h
        · omega
        · exact ih3 c h
      · rw [List.chain'_cons']
        refine ⟨?_, ih4⟩
        intro d hd
        have := ih1 d hd
        rw [hnext] at this
        exact ⟨this, by omega⟩

/-- The loop entered at `divisor` has ended after `fuel + 1` evaluations of its
condition when `divisor + fuel` exceeds the square root of `number`, and its
answer is the one of `trial_division`. -/
theorem trial_division_fuel_enough (number fuel : Nat) :
    ∀ divisor, number < (divisor + fuel) * (divisor + fuel) →
      trial_division_fuel (fuel + 1) number divisor = some (trial_division number divisor) := by
  induction fuel with
  | zero =>
    intro d hd
    have hc : ¬ d * d ≤ number := by simpa using hd
    rw [trial_division_fuel, trial_division]
    simp [hc]
  | succ fuel ih =>
    intro d hd
    rw [trial_division_fuel, trial_division]
    by_cases hc : d * d ≤ number
    · by_cases hdiv : number % d = 0 ∨ number % (d + 2) = 0
      · simp [hc, hdiv]
      · simp only [hc, hdiv, if_true, if_false]
        apply ih
        have hle : d + (fuel + 1) ≤ d + 6 + fuel := by omega
        exact lt_of_lt_of_le hd (Nat.mul_le_mul hle hle)
    · simp [hc]

theorem primality_test_fuel_enough (number fuel : Nat) (hfuel : number < fuel * fuel) :
    primality_test_fuel fuel number = some (primality_test number) := by
  have hpos : 0 < fuel := by
    rcases Nat.eq_zero_or_pos fuel with h | h
    · subst h; simp at hfuel
    · exact h
  obtain ⟨k, rfl⟩ : ∃ k, fuel = k + 1 := ⟨fuel - 1, by omega⟩
  have hloop := trial_division_fuel_enough number k 5
    (lt_of_lt_of_le hfuel (Nat.mul_le_mul (by omega) (by omega)))
  unfold primality_test_fuel primality_test
  by_cases h1 : number = 1
  · simp [h1]
  by_cases h23 : number = 2 ∨ number = 3
  · simp [h1, h23]
  by_cases hdiv : number % 2 = 0 ∨ number % 3 = 0
  · simp [h1, h23, hdiv]
  · simp only [h1, h23, hdiv, if_false]
    exact hloop

/-! ## Facts about the trial division with a wrapping divisor -/

theorem wrap64_eq (x : Nat) (h : x < 2 ^ 64) : wrap64 x = x :=
  Nat.mod_eq_of_lt h

/-- A divisor below `2 ^ 32` whose square is at most a number below
`(2 ^ 32 - 6) ^ 2` is below `2 ^ 32 - 6`. -/
theorem divisor_lt_of_sq_le (number divisor : Nat) (hn : number < (2 ^ 32 - 6) ^ 2)
    (hc : divisor * divisor ≤ number) : divisor < 2 ^ 32 - 6 := by
  by_contra hge
  have hge' : 2 ^ 32 - 6 ≤ divisor := by omega
  have : (2 ^ 32 - 6) * (2 ^ 32 - 6) ≤ divisor * divisor := Nat.mul_le_mul hge' hge'
  rw [sq] at hn
  omega

theorem sq_lt_of_divisor_lt (divisor : Nat) (hd : divisor < 2 ^ 32) :
    divisor * divisor < 2 ^ 64 := by
  have h1 : divisor ≤ 2 ^ 32 - 1 := by omega
  have : divisor * divisor ≤ (2 ^ 32 - 1) * (2 ^ 32 - 1) := Nat.mul_le_mul h1 h1
  have e : (2 ^ 32 - 1) * (2 ^ 32 - 1) < 2 ^ 64 := by norm_num
  omega

/-- For a number below `(2 ^ 32 - 6) ^ 2` and a divisor below `2 ^ 32`, every
product and sum that the wrapping loop evaluates is below `2 ^ 64`. -/
theorem trial_division64_evaluated (number fuel : Nat) (hn : number < (2 ^ 32 - 6) ^ 2) :
    ∀ divisor, divisor < 2 ^ 32 →
      ∀ x ∈ (trial_division64 fuel number divisor).1, x < 2 ^ 64 := by
  induction fuel with
  | zero => intro d _ x hx; simp [trial_division64] at hx
  | succ fuel ih =>
    intro d hd x hx
    have hsq := sq_lt_of_divisor_lt d hd
    rw [trial_division64, wrap64_eq _ hsq] at hx
    by_cases hc : d * d ≤ number
    · have hlt := divisor_lt_of_sq_le number d hn hc
      have h2 : d + 2 < 2 ^ 64 := by omega
      have h6 : d + 6 < 2 ^ 64 := by omega
      rw [wrap64_eq _ h2, wrap64_eq _ h6] at hx
      simp only [hc, if_true] at hx
      split at hx
      · simp only [List.mem_singleton] at hx; omega
      · split at hx
        · simp only [List.mem_cons, List.mem_singleton, List.not_mem_nil, or_false] at hx
          omega
        · simp only [List.mem_cons] at hx
          rcases hx with h | h | h | h
          · omega
          · omega
          · omega
          · exact ih (d + 6) (by omega) x h
    · simp only [hc, if_false, List.mem_singleton] at hx
      omega

/-- For a number below `(2 ^ 32 - 6) ^ 2` and a divisor below `2 ^ 32`, the
wrapping loop gives the answer of the loop over unbounded integers. -/
theorem trial_division64_result (number fuel : Nat) (hn : number < (2 ^ 32 - 6) ^ 2) :
    ∀ divisor, divisor < 2 ^ 32 → number < (divisor + fuel) * (divisor + fuel) →
      (trial_division64 (fuel + 1) number divisor).2 =
        some (trial_division number divisor) := by
  induction fuel with
  | zero =>
    intro d hd hf
    have hsq := sq_lt_of_divisor_lt d hd
    have hc : ¬ d * d ≤ number := by simpa using hf
    rw [trial_division64, trial_division, wrap64_eq _ hsq]
    simp [hc]
  | succ fuel ih =>
    intro d hd hf
    have hsq := sq_lt_of_divisor_lt d hd
    rw [trial_division64, trial_division, wrap64_eq _ hsq]
    by_cases hc : d * d ≤ number
    · have hlt := divisor_lt_of_sq_le number d hn hc
      have h2 : d + 2 < 2 ^ 64 := by omega
      have h6 : d + 6 < 2 ^ 64 := by omega
      rw [wrap64_eq _ h2, wrap64_eq _ h6]
      by_cases hd1 : number % d = 0
      · simp [hc, hd1]
      · by_cases hd2 : number % (d + 2) = 0
        · simp [hc, hd1, hd2]
        · simp only [hc, hd1, hd2, if_true, if_false, or_self]
          apply ih (d + 6) (by omega)
          have hle : d + (fuel + 1) ≤ d + 6 + fuel := by omega
          exact lt_of_lt_of_le hf (Nat.mul_le_mul hle hle)
    · simp [hc]

/-! ## The functions evaluated on small inputs -/

theorem primality_test_small :
    primality_test 2 = PRIME ∧ primality_test 3 = PRIME ∧ primality_test 17 = PRIME ∧
    primality_test 4 = COMPOSITE ∧ primality_test 91 = COMPOSITE := by
  simp [primality_test, trial_division]

theorem sieve_of_eratosthenes_two : sieve_of_eratosthenes 2 [] = Except.ok [2] := by
  simp [sieve_of_eratosthenes, vec_write, vec_read, mark, strike, collect]

theorem sieve_of_eratosthenes_ten : sieve_of_eratosthenes 10 [] = Except.ok [2, 3, 5, 7] := by
  simp [sieve_of_eratosthenes, vec_write, vec_read, mark, strike, collect]

theorem sieve_of_eratosthenes_thirty :
    sieve_of_eratosthenes 30 [] = Except.ok [2, 3, 5, 7, 11, 13, 17, 19, 23, 29] := by
  simp [sieve_of_eratosthenes, vec_write, vec_read, mark, strike, collect]

theorem find_nth_term_small :
    find_nth_term 64 1 1 0 = some (Except.ok 2) ∧
    find_nth_term 64 1 2 0 = some (Except.ok 3) ∧
    find_nth_term 64 1 6 0 = some (Except.ok 13) ∧
    find_nth_term 64 1 7 0 = none ∧
    find_nth_term 64 2 7 0 = some (Except.ok 17) := by
  simp [find_nth_term, find_nth_loop, sieve_of_eratosthenes, vec_write, vec_read, mark,
    strike, collect]

/-! ## The instrumented functions evaluated on small inputs -/

theorem sieve_traced_zero :
    sieve_traced 0 [] = ([Event.access 1 1], Except.error (Fault.out_of_range 1 1)) := by
  rfl

theorem find_nth_term_traced_small :
    find_nth_term_traced 64 1 7 0 = ([15], none) ∧
    find_nth_term_traced 64 2 7 0 = ([15, 18], some (Except.ok 17)) ∧
    find_nth_term_traced 64 9 7 0 = ([15, 18], some (Except.ok 17)) := by
  simp [find_nth_term_traced, find_nth_loop_traced, sieve_of_eratosthenes, vec_write, vec_read,
    mark, strike, collect]

theorem primality_test_fuel_small :
    primality_test_fuel 1 121 = none ∧ primality_test_fuel 2 121 = some COMPOSITE ∧
    primality_test_fuel 2 127 = none ∧ primality_test_fuel 3 127 = some PRIME := by
  simp [primality_test_fuel, trial_division_fuel]

theorem primality_test64_small :
    primality_test64 3 127 = ([25, 7, 11, 121, 13, 17, 289], some PRIME) ∧
    primality_test64 3 121 = ([25, 7, 11, 121], some COMPOSITE) := by
  simp [primality_test64, trial_division64, wrap64]

/-! ## Without overflow, the functions for `w` bits compute with exact integers -/

theorem to_T_eq (w x : Nat) (h : x < 2 ^ w) : to_T w x = x :=
  Nat.mod_eq_of_lt h

theorem arith_eq (w x : Nat) (h : w < 32 ∨ x < 2 ^ w) : arith w x = x := by
  unfold arith
  by_cases hw : w < 32
  · simp [hw]
  · simp only [hw, if_false]
    rcases h with h | h
    · exact absurd h hw
    · exact Nat.mod_eq_of_lt h

theorem sieve_fits_mono (w ceiling ceiling1 : Nat) (h : ceiling ≤ ceiling1)
    (hfit : sieve_fits w ceiling1) : sieve_fits w ceiling := by
  have hs : Nat.sqrt ceiling ≤ Nat.sqrt ceiling1 := Nat.sqrt_le_sqrt h
  refine ⟨by have := hfit.1; omega, fun hw => ?_⟩
  have := hfit.2 hw
  have hle : (Nat.sqrt ceiling + 1) * (Nat.sqrt ceiling + 1) ≤
      (Nat.sqrt ceiling1 + 1) * (Nat.sqrt ceiling1 + 1) :=
    Nat.mul_le_mul (by omega) (by omega)
  omega

/-- The inner loop: when `ceiling + number` is below `2 ^ w`, nothing wraps, and
with fuel for every index up to the ceiling the loop ends. -/
theorem strike_w_eq (w ceiling number : Nat) (hpos : 0 < number)
    (hb : ceiling + number < 2 ^ w) (fuel : Nat) :
    ∀ i primality, ceiling + 1 - i < fuel →
      strike_w w ceiling number fuel i primality =
        ((strike_traced ceiling number hpos i primality).1,
          some (strike_traced ceiling number hpos i primality).2) := by
  induction fuel with
  | zero => intro i arr h; omega
  | succ fuel ih =>
    intro i arr h
    rw [strike_w, strike_traced]
    by_cases hi : i ≤ ceiling
    · simp only [hi, if_true]
      cases hw : vec_write arr i COMPOSITE with
      | error e => rfl
      | ok arr1 =>
        simp only
        rw [to_T_eq w (i + number) (by omega), ih (i + number) arr1 (by omega)]
    · simp only [hi, if_false]

/-- The collecting loop: when `ceiling + 1` is below `2 ^ w`, nothing wraps. -/
theorem collect_w_eq (w ceiling : Nat) (hb : ceiling + 1 < 2 ^ w) (fuel : Nat) :
    ∀ number primality primes, ceiling + 1 - number < fuel →
      collect_w w ceiling fuel number primality primes =
        ((collect_traced ceiling number primality primes).1,
          some (collect_traced ceiling number primality primes).2) := by
  induction fuel with
  | zero => intro n arr ps h; omega
  | succ fuel ih =>
    intro n arr ps h
    rw [collect_w, collect_traced]
    by_cases hn : n ≤ ceiling
    · simp only [hn, if_true]
      cases hr : vec_read arr n with
      | error e => rfl
      | ok m =>
        simp only
        rw [to_T_eq w (n + 1) (by omega), ih (n + 1) arr _ (by omega)]
    · simp only [hn, if_false]

/-- The outer marking loop: for a ceiling that fits, nothing wraps. -/
theorem mark_w_eq (w fuel ceiling : Nat) (hc : 1 ≤ ceiling) (hfit : sieve_fits w ceiling)
    (hfuel : ceiling + 1 < fuel) (gas : Nat) :
    ∀ number (hpos : 0 < number) primality, number ≤ Nat.sqrt ceiling + 1 →
      Nat.sqrt ceiling + 1 - number < gas →
      mark_w w fuel ceiling gas number primality =
        ((mark_traced ceiling number hpos primality).1,
          some (mark_traced ceiling number hpos primality).2) := by
  have hs1 : 1 ≤ Nat.sqrt ceiling := by
    rw [Nat.le_sqrt]; omega
  have hlt := hfit.1
  induction gas with
  | zero => intro n _ arr _ h; omega
  | succ gas ih =>
    intro n hpos arr hn hgas
    have hsq : n * n < 2 ^ w ∨ w < 32 := by
      by_cases hw : w < 32
      · exact Or.inr hw
      · left
        have := hfit.2 (by omega)
        have hle : n * n ≤ (Nat.sqrt ceiling + 1) * (Nat.sqrt ceiling + 1) :=
          Nat.mul_le_mul hn hn
        omega
    have ha : arith w (n * n) = n * n := arith_eq w _ hsq.symm
    rw [mark_w, mark_traced, ha]
    by_cases hcond : n * n ≤ ceiling
    · have hns : n ≤ Nat.sqrt ceiling := Nat.le_sqrt.2 hcond
      simp only [hcond, if_true]
      rw [to_T_eq w (n * n) (by omega), to_T_eq w (n + 1) (by omega)]
      cases hr : vec_read arr n with
      | error e => rfl
      | ok m =>
        simp only
        by_cases hm : m = PRIME
        · simp only [hm, if_true]
          rw [strike_w_eq w ceiling n hpos (by omega) fuel (n * n) arr (by omega)]
          simp only
          cases hs : (strike_traced ceiling n hpos (n * n) arr).2 with
          | error e => rfl
          | ok arr1 =>
            simp only
            rw [ih (n + 1) (Nat.succ_pos n) arr1 (by omega) (by omega)]
        · simp only [hm, if_false]
          rw [ih (n + 1) (Nat.succ_pos n) arr (by omega) (by omega)]
    · simp only [hcond, if_false]

/-- The sieve: for a ceiling that fits, nothing wraps, and with `fuel` beyond
`ceiling + 1` every loop ends; the sieve for `w` bits then records and returns
what the sieve with exact integers does. -/
theorem sieve_w_eq (w fuel ceiling : Nat) (primes : List Nat) (hc : 1 ≤ ceiling)
    (hfit : sieve_fits w ceiling) (hfuel : ceiling + 1 < fuel) :
    sieve_w w fuel ceiling primes =
      ((sieve_traced ceiling primes).1, some (sieve_traced ceiling primes).2) := by
  have hs1 : 1 ≤ Nat.sqrt ceiling := by
    rw [Nat.le_sqrt]; omega
  have hs2 : Nat.sqrt ceiling ≤ ceiling := Nat.sqrt_le_self ceiling
  have hlt := hfit.1
  have ha : arith w (ceiling + 1) = ceiling + 1 := arith_eq w _ (Or.inr (by omega))
  unfold sieve_w sieve_traced
  rw [ha]
  cases h1 : vec_write (List.replicate (ceiling + 1) PRIME) 1 NEITHER with
  | error e => rfl
  | ok a1 =>
    simp only
    cases h2 : vec_write a1 0 NEITHER with
    | error e => rfl
    | ok a2 =>
      simp only
      rw [mark_w_eq w fuel ceiling hc hfit hfuel fuel 2 (Nat.succ_pos 1) a2 (by omega) (by omega)]
      simp only
      cases h3 : (mark_traced ceiling 2 (Nat.succ_pos 1) a2).2 with
      | error e => rfl
      | ok a3 =>
        simp only
        rw [collect_w_eq w ceiling (by omega) fuel 2 a3 primes (by omega)]

/-- Result of the sieve for `w` bits on a ceiling from 1 on that fits. -/
theorem sieve_w_result (w fuel ceiling : Nat) (primes : List Nat) (hc : 1 ≤ ceiling)
    (hfit : sieve_fits w ceiling) (hfuel : ceiling + 1 < fuel) :
    (sieve_w w fuel ceiling primes).2 = some (Except.ok (primes ++ primes_upto ceiling)) := by
  rw [sieve_w_eq w fuel ceiling primes hc hfit hfuel, sieve_traced_snd,
    sieve_of_eratosthenes_eq ceiling primes hc]

theorem pred_index_eq (w index : Nat) (h1 : 1 ≤ index) (hw : index < 2 ^ w) :
    pred_index w index = (index + 2 ^ w - 1) % 2 ^ w := by
  rw [index_pred_wrap w index h1 hw]
  unfold pred_index
  by_cases h32 : w < 32
  · simp only [h32, if_true]
    have hlt : 2 ^ w < 2 ^ 64 := Nat.pow_lt_pow_right (by decide) (by omega)
    have e : index + 2 ^ 64 - 1 = (index - 1) + 2 ^ 64 := by omega
    rw [e, Nat.add_mod_right, Nat.mod_eq_of_lt (by omega)]
  · simp only [h32, if_false]
    exact index_pred_wrap w index h1 hw

/-- The first ceiling recorded by the loop with exact integers. -/
theorem find_nth_loop_traced_head (w index ceiling_estimate gas ceiling_min : Nat)
    (hc : 1 ≤ max ceiling_estimate ceiling_min) :
    max ceiling_estimate ceiling_min ∈
      (find_nth_loop_traced w index ceiling_estimate (gas + 1) ceiling_min []).1 := by
  by_cases hlen : index ≤ (primes_upto (max ceiling_estimate ceiling_min)).length
  · rw [find_nth_loop_traced_hit w index ceiling_estimate gas ceiling_min hc hlen]
    simp
  · rw [find_nth_loop_traced_miss w index ceiling_estimate gas ceiling_min hc hlen]
    simp

/-- The retry loop: when every ceiling that the loop with exact integers uses
fits `T` and the fuel, the loop for `w` bits records the same ceilings, and for
an index from 1 on gives the same result. -/
theorem find_nth_loop_w_eq (w fuel index ceiling_estimate gas : Nat) :
    ∀ ceiling_min, 1 ≤ ceiling_min →
      (∀ c ∈ (find_nth_loop_traced w index ceiling_estimate gas ceiling_min []).1,
        sieve_fits w c ∧ c + 1 < fuel) →
      (find_nth_loop_w w fuel index ceiling_estimate gas ceiling_min []).1 =
        (find_nth_loop_traced w index ceiling_estimate gas ceiling_min []).1 ∧
      (1 ≤ index → index < 2 ^ w →
        (find_nth_loop_w w fuel index ceiling_estimate gas ceiling_min []).2 =
          (find_nth_loop_traced w index ceiling_estimate gas ceiling_min []).2) := by
  induction gas with
  | zero => intro cmin _ _; exact ⟨rfl, fun _ _ => rfl⟩
  | succ gas ih =>
    intro cmin hmin hall
    have hmax := le_max_right ceiling_estimate cmin
    have hest := le_max_left ceiling_estimate cmin
    have hc1 : 1 ≤ max ceiling_estimate cmin := by omega
    obtain ⟨hfit, hfuel⟩ := hall _
      (find_nth_loop_traced_head w index ceiling_estimate gas cmin hc1)
    have hsieve := sieve_w_result w fuel (max ceiling_estimate cmin) [] hc1 hfit hfuel
    rw [List.nil_append] at hsieve
    by_cases hlen : index ≤ (primes_upto (max ceiling_estimate cmin)).length
    · rw [find_nth_loop_traced_hit w index ceiling_estimate gas cmin hc1 hlen]
      rw [find_nth_loop_w]
      simp only [hsieve, hlen, if_true]
      refine ⟨by first | rfl | trivial, fun h1 hw => ?_⟩
      rw [pred_index_eq w index h1 hw]
    · rw [find_nth_loop_traced_miss w index ceiling_estimate gas cmin hc1 hlen] at hall ⊢
      rw [find_nth_loop_w]
      simp only [hsieve, hlen, if_false]
      have hnext1 : 1 ≤ max ceiling_estimate cmin * 5 / 4 := by omega
      have hto : to_T w (max ceiling_estimate cmin * 5 / 4) =
          max ceiling_estimate cmin * 5 / 4 ∨ gas = 0 := by
        rcases Nat.eq_zero_or_pos gas with h0 | h0
        · exact Or.inr h0
        · left
          obtain ⟨g, rfl⟩ : ∃ g, gas = g + 1 := ⟨gas - 1, by omega⟩
          have hmem := find_nth_loop_traced_head w index ceiling_estimate g
            (max ceiling_estimate cmin * 5 / 4)
            (le_trans hnext1 (le_max_right _ _))
          have hnext : max ceiling_estimate (max ceiling_estimate cmin * 5 / 4) =
              max ceiling_estimate cmin * 5 / 4 := max_eq_right (by omega)
          rw [hnext] at hmem
          have := (hall _ (List.mem_cons_of_mem _ hmem)).1.1
          exact to_T_eq w _ (by omega)
      rcases hto with hto | h0
      · rw [hto]
        obtain ⟨ih1, ih2⟩ := ih (max ceiling_estimate cmin * 5 / 4) hnext1
          (fun c hc => hall c (List.mem_cons_of_mem _ hc))
        refine ⟨by rw [ih1], fun h1 hw => ih2 h1 hw⟩
      · subst h0
        exact ⟨rfl, fun _ _ => rfl⟩

/-- Every ceiling that the loop with exact integers uses is at most a bound on
the first ceiling and on 1.25 times the `index`-th prime. -/
theorem find_nth_loop_traced_le (w index ceiling_estimate gas M : Nat)
    (hM : Nat.nth Nat.Prime (index - 1) * 5 / 4 ≤ M) :
    ∀ ceiling_min, 1 ≤ ceiling_min → max ceiling_estimate ceiling_min ≤ M →
      ∀ c ∈ (find_nth_loop_traced w index ceiling_estimate gas ceiling_min []).1, c ≤ M := by
  induction gas with
  | zero => intro cmin _ _ c hc; simp [find_nth_loop_traced] at hc
  | succ gas ih =>
    intro cmin hmin hle c hc
    have hmax := le_max_right ceiling_estimate cmin
    have hest := le_max_left ceiling_estimate cmin
    by_cases hlen : index ≤ (primes_upto (max ceiling_estimate cmin)).length
    · rw [find_nth_loop_traced_hit w index ceiling_estimate gas cmin (by omega) hlen] at hc
      simp only [List.mem_singleton] at hc
      omega
    · have h1 : 1 ≤ index := by omega
      have hp : max ceiling_estimate cmin < Nat.nth Nat.Prime (index - 1) := by
        by_contra hge
        exact hlen ((le_length_primes_upto_iff _ index h1).2 (by omega))
      rw [find_nth_loop_traced_miss w index ceiling_estimate gas cmin (by omega) hlen] at hc
      rcases List.mem_cons.1 hc with h | h
      · omega
      · refine ih (max ceiling_estimate cmin * 5 / 4) (by omega) ?_ c h
        rw [max_eq_right (by omega)]
        omega

/-- The loop for `w` bits and the loop with exact integers, when a bound on the
first ceiling and on 1.25 times the `index`-th prime fits `T` and the fuel. -/
theorem find_nth_term_w_eq (w fuel gas index ceiling_estimate M : Nat)
    (hM1 : max ceiling_estimate 15 ≤ M)
    (hM2 : Nat.nth Nat.Prime (index - 1) * 5 / 4 ≤ M)
    (hfit : sieve_fits w M) (hfuel : M + 1 < fuel) :
    (find_nth_term_w w fuel gas index ceiling_estimate).1 =
      (find_nth_term_traced w gas index ceiling_estimate).1 ∧
    (1 ≤ index → index < 2 ^ w →
      (find_nth_term_w w fuel gas index ceiling_estimate).2 =
        find_nth_term w gas index ceiling_estimate) := by
  have hall : ∀ c ∈ (find_nth_loop_traced w index ceiling_estimate gas 15 []).1,
      sieve_fits w c ∧ c + 1 < fuel := by
    intro c hc
    have hle := find_nth_loop_traced_le w index ceiling_estimate gas M hM2 15 (by decide) hM1 c hc
    exact ⟨sieve_fits_mono w c M hle hfit, by omega⟩
  obtain ⟨e1, e2⟩ := find_nth_loop_w_eq w fuel index ceiling_estimate gas 15 (by decide) hall
  unfold find_nth_term_w find_nth_term_traced
  refine ⟨e1, fun h1 hw => ?_⟩
  rw [e2 h1 hw, find_nth_loop_traced_snd]
  rfl

/-! ## The evaluator computes what the sieve for `w` bits computes -/

/-- One run of the inner loop: entered at `i` with `i + k * number` still at
most the ceiling, the loop writes `i`, `i + number`, ..., `i + k * number`
without wrap-around and goes on at `i + k * number + number`, stored in `T`. -/
theorem strike_w_run (w ceiling number : Nat) (hc : ceiling < 2 ^ w) (fuel k : Nat) :
    ∀ i primality, i + k * number ≤ ceiling → ceiling < primality.length →
      ∃ primality1, primality1.length = primality.length ∧
        (∀ j, primality1[j]? =
          if i ≤ j ∧ j ≤ i + k * number ∧ (j - i) % number = 0 then some COMPOSITE
          else primality[j]?) ∧
        (strike_w w ceiling number (fuel + k + 1) i primality).2 =
          (strike_w w ceiling number fuel (to_T w (i + k * number + number)) primality1).2 := by
  induction k with
  | zero =>
    intro i arr hi hlen
    simp only [Nat.zero_mul, Nat.add_zero] at hi ⊢
    refine ⟨arr.set i COMPOSITE, by simp, ?_, ?_⟩
    · intro j
      by_cases hj : j = i
      · subst hj
        simp [List.getElem?_set_self (by omega : j < arr.length)]
      · have hne : i ≠ j := fun h => hj h.symm
        have : ¬ (i ≤ j ∧ j ≤ i ∧ (j - i) % number = 0) := by omega
        simp only [this, if_false, List.getElem?_set_ne hne]
    · rw [strike_w]
      simp only [hi, if_true, vec_write_ok arr i COMPOSITE (by omega)]
  | succ k ih =>
    intro i arr hi hlen
    have hmul : (k + 1) * number = k * number + number := Nat.succ_mul k number
    have hi1 : i ≤ ceiling := by omega
    obtain ⟨arr2, l2, g2, r2⟩ := ih (i + number) (arr.set i COMPOSITE) (by omega)
      (by simp; omega)
    refine ⟨arr2, by rw [l2]; simp, ?_, ?_⟩
    · intro j
      rw [g2 j]
      by_cases hj : j = i
      · subst hj
        by_cases hn : number = 0
        · subst hn
          simp [List.getElem?_set_self (by omega : j < arr.length)]
        · have : ¬ (j + number ≤ j ∧ j ≤ j + number + k * number ∧
              (j - (j + number)) % number = 0) := by omega
          simp only [this, if_false]
          simp [List.getElem?_set_self (by omega : j < arr.length)]
      · have hne : i ≠ j := fun h => hj h.symm
        rw [List.getElem?_set_ne hne]
        have hiff : (i + number ≤ j ∧ j ≤ i + number + k * number ∧
            (j - (i + number)) % number = 0) ↔
            (i ≤ j ∧ j ≤ i + (k + 1) * number ∧ (j - i) % number = 0) := by
          rw [hmul]
          constructor
          · rintro ⟨a, b, c⟩
            refine ⟨by omega, by omega, ?_⟩
            have e : j - i = (j - (i + number)) + number := by omega
            rw [e, Nat.add_mod_right]
            exact c
          · rintro ⟨a, b, c⟩
            have hd : number ∣ (j - i) := Nat.dvd_of_mod_eq_zero c
            have hle : number ≤ j - i := Nat.le_of_dvd (by omega) hd
            refine ⟨by omega, by omega, ?_⟩
            have e : j - i = (j - (i + number)) + number := by omega
            rw [e, Nat.add_mod_right] at c
            exact c
        simp only [hiff]
    · have e1 : fuel + (k + 1) + 1 = (fuel + k + 1) + 1 := by omega
      have e2 : i + number + k * number + number = i + (k + 1) * number + number := by
        rw [hmul]; omega
      rw [e1, strike_w]
      simp only [hi1, if_true, vec_write_ok arr i COMPOSITE (by omega)]
      rw [to_T_eq w (i + number) (by omega), r2, e2]

theorem passes_steps_cons (number : Nat) (p : Nat × Nat) (passes : List (Nat × Nat)) :
    passes_steps number (p :: passes) = (p.2 - p.1) / number + 1 + passes_steps number passes := by
  simp [passes_steps]

theorem pass_hits_cons (number : Nat) (p : Nat × Nat) (passes : List (Nat × Nat)) (j : Nat) :
    pass_hits number (p :: passes) j =
      (decide (p.1 ≤ j ∧ j ≤ p.2 ∧ (j - p.1) % number = 0) || pass_hits number passes j) := by
  simp [pass_hits]

/-- The inner loop for `w` bits, with the runs that the evaluator finds: the
loop is left without fault, and has set to `COMPOSITE` the entries in the
runs. -/
theorem strike_w_passes (w ceiling number : Nat) (hpos : 0 < number)
    (hc : ceiling < 2 ^ w) (pfuel : Nat) :
    ∀ i passes primality fuel, strike_passes w ceiling number pfuel i = some passes →
      ceiling < primality.length → passes_steps number passes < fuel →
      ∃ primality1, (strike_w w ceiling number fuel i primality).2 =
          some (Except.ok primality1) ∧
        primality1.length = primality.length ∧
        ∀ j, primality1[j]? =
          if pass_hits number passes j = true then some COMPOSITE else primality[j]? := by
  induction pfuel with
  | zero => intro i ps arr fuel h; simp [strike_passes] at h
  | succ pfuel ih =>
    intro i ps arr fuel h hlen hfuel
    rw [strike_passes] at h
    by_cases hi : i ≤ ceiling
    · simp only [hi, if_true] at h
      cases hrec : strike_passes w ceiling number pfuel
          (to_T w (i + (ceiling - i) / number * number + number)) with
      | none => rw [hrec] at h; cases h
      | some ps1 =>
        rw [hrec] at h
        simp only [Option.some.injEq] at h
        subst h
        rw [passes_steps_cons] at hfuel
        simp only [Nat.add_sub_cancel_left] at hfuel
        have hk : (ceiling - i) / number * number ≤ ceiling - i := Nat.div_mul_le_self _ _
        have hdiv : (ceiling - i) / number * number / number = (ceiling - i) / number :=
          Nat.mul_div_cancel _ hpos
        rw [hdiv] at hfuel
        obtain ⟨f, rfl⟩ : ∃ f, fuel = f + (ceiling - i) / number + 1 :=
          ⟨fuel - ((ceiling - i) / number + 1), by omega⟩
        obtain ⟨arr1, l1, g1, r1⟩ := strike_w_run w ceiling number hc f
          ((ceiling - i) / number) i arr (by omega) hlen
        obtain ⟨arr2, r2, l2, g2⟩ := ih _ ps1 arr1 f hrec (by omega) (by omega)
        refine ⟨arr2, by rw [r1, r2], by rw [l2, l1], ?_⟩
        intro j
        rw [g2 j, g1 j, pass_hits_cons]
        by_cases h1 : pass_hits number ps1 j = true
        · simp [h1]
        · by_cases h2 : i ≤ j ∧ j ≤ i + (ceiling - i) / number * number ∧ (j - i) % number = 0
          · simp [h1, h2]
          · simp [h1, h2]
    · simp only [hi, if_false, Option.some.injEq] at h
      subst h
      obtain ⟨f, rfl⟩ : ∃ f, fuel = f + 1 := ⟨fuel - 1, by omega⟩
      refine ⟨arr, ?_, rfl, ?_⟩
      · rw [strike_w]; simp [hi]
      · intro j; simp [pass_hits]

theorem mark_of_append (strikers : List (Nat × List (Nat × Nat))) (number : Nat)
    (passes : List (Nat × Nat)) (j : Nat) :
    mark_of (strikers ++ [(number, passes)]) j =
      if pass_hits number passes j = true then COMPOSITE else mark_of strikers j := by
  unfold mark_of
  by_cases h1 : (strikers.any fun s => pass_hits s.1 s.2 j) = true
  · by_cases h2 : pass_hits number passes j = true <;> simp [List.any_append, h1, h2]
  · by_cases h2 : pass_hits number passes j = true <;> simp [List.any_append, h1, h2]

/-- A run of the inner loop stays at or below the ceiling. -/
theorem strike_passes_le (w ceiling number : Nat) (pfuel : Nat) :
    ∀ i passes, strike_passes w ceiling number pfuel i = some passes →
      ∀ j, pass_hits number passes j = true → j ≤ ceiling := by
  induction pfuel with
  | zero => intro i ps h; simp [strike_passes] at h
  | succ pfuel ih =>
    intro i ps h j hj
    rw [strike_passes] at h
    by_cases hi : i ≤ ceiling
    · simp only [hi, if_true] at h
      cases hrec : strike_passes w ceiling number pfuel
          (to_T w (i + (ceiling - i) / number * number + number)) with
      | none => rw [hrec] at h; cases h
      | some ps1 =>
        rw [hrec] at h
        simp only [Option.some.injEq] at h
        subst h
        rw [pass_hits_cons, Bool.or_eq_true, decide_eq_true_eq] at hj
        rcases hj with hj | hj
        · have hk : (ceiling - i) / number * number ≤ ceiling - i := Nat.div_mul_le_self _ _
          omega
        · exact ih _ ps1 hrec j hj
    · simp only [hi, if_false, Option.some.injEq] at h
      subst h
      simp [pass_hits] at hj

/-- The body of the outer loop when the entry of `number` is `PRIME`: the array
after the inner loop holds the marks of the extended list of strikers. -/
theorem marks_agree_strike (w fuel ceiling number : Nat) (hc : ceiling < 2 ^ w)
    (strikers : List (Nat × List (Nat × Nat))) (passes : List (Nat × Nat))
    (primality : List Primality) (hag : marks_agree ceiling strikers primality)
    (hpos : 0 < number)
    (hp : strike_passes w ceiling number fuel (to_T w (number * number)) = some passes)
    (hsteps : passes_steps number passes < fuel) :
    ∃ primality1, (strike_w w ceiling number fuel (to_T w (number * number)) primality).2 =
        some (Except.ok primality1) ∧
      marks_agree ceiling (strikers ++ [(number, passes)]) primality1 := by
  obtain ⟨arr1, r1, l1, g1⟩ := strike_w_passes w ceiling number hpos hc fuel _ passes
    primality fuel hp (by rw [hag.1]; omega) hsteps
  refine ⟨arr1, r1, by rw [l1, hag.1], fun j hj => ?_⟩
  rw [g1 j, mark_of_append, hag.2 j hj]
  by_cases hh : pass_hits number passes j = true <;> simp [hh]

/-- The outer marking loop for `T` narrower than `int`, from a state that the
evaluator describes: the loop is left without fault in a state that the
evaluator describes. -/
theorem mark_w_strikers (w fuel ceiling : Nat) (hw : w < 32) (hc : ceiling < 2 ^ w)
    (gas : Nat) :
    ∀ number strikers strikers1 primality, marks_agree ceiling strikers primality →
      strikers_w w fuel ceiling gas number strikers = some strikers1 →
      ∃ primality1, (mark_w w fuel ceiling gas number primality).2 =
          some (Except.ok primality1) ∧
        marks_agree ceiling strikers1 primality1 := by
  induction gas with
  | zero => intro n S S1 arr _ h; simp [strikers_w] at h
  | succ gas ih =>
    intro n S S1 arr hag h
    rw [strikers_w] at h
    rw [mark_w, arith_eq w _ (Or.inl hw)]
    by_cases hcond : n * n ≤ ceiling
    · have hle : n ≤ ceiling := le_trans (Nat.le_mul_self n) hcond
      simp only [hcond, if_true] at h ⊢
      rw [vec_read_ok arr n _ (hag.2 n hle)]
      simp only
      by_cases hm : mark_of S n = PRIME
      · simp only [hm, if_true] at h ⊢
        have hpos : 0 < n := by
          rcases Nat.eq_zero_or_pos n with h0 | h0
          · subst h0; simp [mark_of] at hm; split at hm <;> cases hm
          · exact h0
        cases hp : strike_passes w ceiling n fuel (to_T w (n * n)) with
        | none => rw [hp] at h; cases h
        | some ps =>
          rw [hp] at h
          simp only at h
          by_cases hsteps : passes_steps n ps < fuel
          · simp only [hsteps, if_true] at h
            obtain ⟨arr1, r1, hag1⟩ := marks_agree_strike w fuel ceiling n hc S ps arr hag
              hpos hp hsteps
            simp only [r1]
            exact ih _ _ S1 arr1 hag1 h
          · simp only [hsteps, if_false] at h
            cases h
      · simp only [hm, if_false] at h ⊢
        exact ih _ _ S1 arr hag h
    · simp only [hcond, if_false, Option.some.injEq] at h ⊢
      subst h
      exact ⟨arr, rfl, hag⟩

/-- The array after the two initial assignments holds the marks of the empty
list of strikers. -/
theorem marks_agree_init (ceiling : Nat) :
    marks_agree ceiling []
      (((List.replicate (ceiling + 1) PRIME).set 1 NEITHER).set 0 NEITHER) := by
  refine ⟨by simp, fun j hj => ?_⟩
  have hm : mark_of [] j = if j < 2 then NEITHER else PRIME := by simp [mark_of]
  rw [hm]
  by_cases hj2 : j < 2
  · simp only [hj2, if_true]
    rcases Nat.eq_zero_or_pos j with h0 | h0
    · subst h0; simp
    · have : j = 1 := by omega
      subst this
      simp [List.getElem?_set]
      omega
  · simp only [hj2, if_false]
    rw [List.getElem?_set_ne (by omega), List.getElem?_set_ne (by omega)]
    simp [List.getElem?_replicate]
    omega

/-- The collecting loop on an array that the evaluator describes. -/
theorem collect_w_marks (w fuel ceiling : Nat) (hb : ceiling + 1 < 2 ^ w)
    (strikers : List (Nat × List (Nat × Nat))) (primality : List Primality)
    (hag : marks_agree ceiling strikers primality) (number : Nat) (primes : List Nat)
    (hfuel : ceiling + 1 - number < fuel) :
    (collect_w w ceiling fuel number primality primes).2 =
      some (Except.ok (primes ++ (List.range' number (ceiling + 1 - number)).filter
        (fun j => decide (mark_of strikers j = PRIME)))) := by
  rw [collect_w_eq w ceiling hb fuel number primality primes hfuel]
  simp only
  rw [collect_traced_snd, collect_ok ceiling number primality primes hag.1]
  congr 3
  apply List.filter_congr
  intro j hj
  rw [List.mem_range'_1] at hj
  rw [hag.2 j (by omega)]
  by_cases hm : mark_of strikers j = PRIME <;> simp [hm]

/-- What the evaluator computes is what the sieve for `w` bits appends. -/
theorem sieve_eval_sound (w fuel ceiling : Nat) (primes found : List Nat)
    (h : sieve_eval w fuel ceiling = some found) :
    (sieve_w w fuel ceiling primes).2 = some (Except.ok (primes ++ found)) := by
  unfold sieve_eval at h
  by_cases hcond : w < 32 ∧ 1 ≤ ceiling ∧ ceiling + 1 < 2 ^ w ∧ ceiling + 1 < fuel
  · obtain ⟨hw, hc1, hb, hfuel⟩ := hcond
    simp only [hw, hc1, hb, hfuel, and_self, if_true] at h
    cases hs : strikers_w w fuel ceiling fuel 2 [] with
    | none => rw [hs] at h; cases h
    | some S =>
      rw [hs] at h
      simp only [Option.some.injEq] at h
      subst h
      obtain ⟨arr3, r3, hag3⟩ := mark_w_strikers w fuel ceiling hw (by omega) fuel 2 [] S _
        (marks_agree_init ceiling) hs
      unfold sieve_w
      rw [arith_eq w _ (Or.inl hw), vec_write_ok _ 1 NEITHER (by simp; omega)]
      simp only
      rw [vec_write_ok _ 0 NEITHER (by simp)]
      simp only [r3]
      exact collect_w_marks w fuel ceiling hb S arr3 hag3 2 primes (by omega)
  · simp only [hcond, if_false] at h
    cases h

/-- What the evaluator computes is what the retry loop for `w` bits records and
returns. -/
theorem find_eval_sound (w fuel index ceiling_estimate gas : Nat) :
    ∀ ceiling_min r, find_eval w fuel index ceiling_estimate gas ceiling_min = some r →
      find_nth_loop_w w fuel index ceiling_estimate gas ceiling_min [] = r := by
  induction gas with
  | zero =>
    intro cmin r h
    simp only [find_eval, Option.some.injEq] at h
    subst h
    rfl
  | succ gas ih =>
    intro cmin r h
    rw [find_eval] at h
    cases hs : sieve_eval w fuel (max ceiling_estimate cmin) with
    | none => rw [hs] at h; cases h
    | some L =>
      rw [hs] at h
      simp only at h
      have hsieve := sieve_eval_sound w fuel (max ceiling_estimate cmin) [] L hs
      rw [List.nil_append] at hsieve
      rw [find_nth_loop_w]
      simp only [hsieve]
      by_cases hlen : index ≤ L.length
      · simp only [hlen, if_true, Option.some.injEq] at h ⊢
        exact h
      · simp only [hlen, if_false] at h ⊢
        cases hr : find_eval w fuel index ceiling_estimate gas
            (to_T w (max ceiling_estimate cmin * 5 / 4)) with
        | none => rw [hr] at h; cases h
        | some r1 =>
          rw [hr] at h
          simp only [Option.some.injEq] at h
          rw [ih _ r1 hr]
          exact h

/-! ## Results for `uint8_t` and `uint16_t`, computed with the evaluator -/

/-- The evaluator as a means to compute the table of the primes up to a
ceiling: for a width in which the ceiling fits, what it computes is the
table. -/
theorem primes_upto_of_eval (w fuel ceiling : Nat) (found : List Nat) (hc : 1 ≤ ceiling)
    (hfit : sieve_fits w ceiling) (hfuel : ceiling + 1 < fuel)
    (h : sieve_eval w fuel ceiling = some found) : primes_upto ceiling = found := by
  have h1 := sieve_eval_sound w fuel ceiling [] found h
  rw [sieve_w_result w fuel ceiling [] hc hfit hfuel] at h1
  simpa using h1

theorem sieve_fits_of_lt (w ceiling : Nat) (hw : w < 32) (h : 2 * ceiling < 2 ^ w) :
    sieve_fits w ceiling := by
  have := Nat.sqrt_le_self ceiling
  exact ⟨by omega, fun h32 => by omega⟩

set_option maxRecDepth 100000 in
theorem sieve_eval_u16_250 :
    sieve_eval 16 300 250 = some [2, 3, 5, 7, 11, 13, 17, 19, 23, 29, 31, 37, 41, 43, 47, 53,
      59, 61, 67, 71, 73, 79, 83, 89, 97, 101, 103, 107, 109, 113, 127, 131, 137, 139, 149, 151,
      157, 163, 167, 173, 179, 181, 191, 193, 197, 199, 211, 223, 227, 229, 233, 239, 241] := by
  decide!

/-- The table of the primes up to 250. -/
theorem primes_upto_250 :
    primes_upto 250 = [2, 3, 5, 7, 11, 13, 17, 19, 23, 29, 31, 37, 41, 43, 47, 53,
      59, 61, 67, 71, 73, 79, 83, 89, 97, 101, 103, 107, 109, 113, 127, 131, 137, 139, 149, 151,
      157, 163, 167, 173, 179, 181, 191, 193, 197, 199, 211, 223, 227, 229, 233, 239, 241] :=
  primes_upto_of_eval 16 300 250 _ (by decide) (sieve_fits_of_lt 16 250 (by decide) (by decide))
    (by decide) sieve_eval_u16_250

/-- The primes number 7, 48 and 50. -/
theorem nth_prime_values :
    Nat.nth Nat.Prime 6 = 17 ∧ Nat.nth Nat.Prime 47 = 223 ∧ Nat.nth Nat.Prime 49 = 229 := by
  have h6 := getElem?_primes_upto 250 6 (by rw [primes_upto_250]; decide)
  have h47 := getElem?_primes_upto 250 47 (by rw [primes_upto_250]; decide)
  have h49 := getElem?_primes_upto 250 49 (by rw [primes_upto_250]; decide)
  rw [primes_upto_250] at h6 h47 h49
  simp only [List.getElem?_cons_succ, List.getElem?_cons_zero, Option.some.injEq] at h6 h47 h49
  exact ⟨h6.symm, h47.symm, h49.symm⟩

set_option maxRecDepth 100000 in
theorem find_eval_u8_48 :
    find_eval 8 300 48 250 1 15 = some ([250], some (Except.ok 239)) := by
  decide!

/-- `find_nth_term` for `uint8_t` and index 48, for which line 81 gives the
estimate 250. -/
theorem find_nth_term_w_u8_48 :
    find_nth_term_w 8 300 1 48 250 = ([250], some (Except.ok 239)) :=
  find_eval_sound 8 300 48 250 1 15 _ find_eval_u8_48

set_option maxRecDepth 100000 in
theorem find_eval_u8_50 :
    find_eval 8 300 50 7 14 15 =
      some ([15, 18, 22, 27, 33, 41, 51, 63, 78, 97, 121, 151, 188, 235],
        some (Except.ok 229)) := by
  decide!

/-- `find_nth_term` for `uint8_t` and index 50, with the estimate 7 (line 81
gives 263, which is 7 modulo 256). -/
theorem find_nth_term_w_u8_50 :
    find_nth_term_w 8 300 14 50 7 =
      ([15, 18, 22, 27, 33, 41, 51, 63, 78, 97, 121, 151, 188, 235], some (Except.ok 229)) :=
  find_eval_sound 8 300 50 7 14 15 _ find_eval_u8_50

set_option maxRecDepth 100000 in
theorem find_eval_u8_54 :
    find_eval 8 300 54 34 11 15 =
      some ([34, 42, 52, 65, 81, 101, 126, 157, 196, 245, 50], none) := by
  decide!

/-- `find_nth_term` for `uint8_t` and index 54, with the estimate 34 (line 81
gives 290, which is 34 modulo 256), for 11 iterations. -/
theorem find_nth_term_w_u8_54 :
    find_nth_term_w 8 300 11 54 34 =
      ([34, 42, 52, 65, 81, 101, 126, 157, 196, 245, 50], none) :=
  find_eval_sound 8 300 54 34 11 15 _ find_eval_u8_54

/-- C1: for every ceiling from 1 on, the sieve called with an empty vector ends
without fault and leaves in it exactly the prime numbers up to the ceiling:
every entry is a prime `p <= ceiling`, and every prime `p <= ceiling` is an
entry. -/
theorem sieve_exactly_primes (ceiling : Nat) (h : 1 ≤ ceiling) :
    ∃ primes, sieve_of_eratosthenes ceiling [] = Except.ok primes ∧
      ∀ p, p ∈ primes ↔ (Nat.Prime p ∧ p ≤ ceiling) := by
  refine ⟨primes_upto ceiling, ?_, mem_primes_upto ceiling⟩
  rw [sieve_of_eratosthenes_eq ceiling [] h, List.nil_append]

theorem sieve_exactly_primes_witness :
    1 ≤ 30 ∧ ∃ primes, sieve_of_eratosthenes 30 [] = Except.ok primes ∧
      ∀ p, p ∈ primes ↔ (Nat.Prime p ∧ p ≤ 30) :=
  ⟨by decide, sieve_exactly_primes 30 (by decide)⟩

/-- C2, as stated, fails for `T = uint8_t`: for index 48, with the estimate 250
that line 81 computes, the sieve with ceiling 250 misses 17, 43, 173 and 199, the
check `index <= primes.size()` succeeds on its 49 entries, and the value
reported is 239, whereas the prime number 48 is 223. -/
theorem find_nth_term_w_u8_wrong :
    (find_nth_term_w 8 300 1 48 250).2 = some (Except.ok 239) ∧
    Nat.nth Nat.Prime (48 - 1) = 223 := by
  rw [find_nth_term_w_u8_48]
  exact ⟨rfl, nth_prime_values.2.1⟩

/-- C2, amended: for `T` of `w` bits, every index from 1 on and every value of
the initial ceiling estimate, provided that no arithmetic on `T` overflows (a
bound `M` on the first ceiling `max(estimate, 15)` and on 1.25 times the
`index`-th prime fits `T`: `sieve_fits w M`), the retry loop ends and the value
reported is the `index`-th prime in ascending order, counted from 1: with enough
iterations allowed the result is that prime, and however many are allowed it is
nothing else. -/
theorem find_nth_term_w_nth_prime (w fuel index ceiling_estimate M : Nat) (h1 : 1 ≤ index)
    (hw : index < 2 ^ w) (hM1 : max ceiling_estimate 15 ≤ M)
    (hM2 : Nat.nth Nat.Prime (index - 1) * 5 / 4 ≤ M) (hfit : sieve_fits w M)
    (hfuel : M + 1 < fuel) :
    (∀ gas, Nat.nth Nat.Prime (index - 1) + 1 ≤ gas →
      (find_nth_term_w w fuel gas index ceiling_estimate).2 =
        some (Except.ok (Nat.nth Nat.Prime (index - 1)))) ∧
    (∀ gas, (find_nth_term_w w fuel gas index ceiling_estimate).2 = none ∨
      (find_nth_term_w w fuel gas index ceiling_estimate).2 =
        some (Except.ok (Nat.nth Nat.Prime (index - 1)))) := by
  constructor
  · intro gas hgas
    rw [(find_nth_term_w_eq w fuel gas index ceiling_estimate M hM1 hM2 hfit hfuel).2 h1 hw]
    exact find_nth_term_eq w index ceiling_estimate gas h1 hw hgas
  · intro gas
    rw [(find_nth_term_w_eq w fuel gas index ceiling_estimate M hM1 hM2 hfit hfuel).2 h1 hw]
    exact find_nth_loop_sound w index ceiling_estimate h1 hw gas 15 (by decide)

theorem find_nth_term_w_nth_prime_witness :
    1 ≤ 7 ∧ 7 < 2 ^ 8 ∧ max 0 15 ≤ 21 ∧ Nat.nth Nat.Prime (7 - 1) * 5 / 4 ≤ 21 ∧
    sieve_fits 8 21 ∧ 21 + 1 < 300 ∧
    ((∀ gas, Nat.nth Nat.Prime (7 - 1) + 1 ≤ gas →
      (find_nth_term_w 8 300 gas 7 0).2 = some (Except.ok (Nat.nth Nat.Prime (7 - 1)))) ∧
    (∀ gas, (find_nth_term_w 8 300 gas 7 0).2 = none ∨
      (find_nth_term_w 8 300 gas 7 0).2 = some (Except.ok (Nat.nth Nat.Prime (7 - 1))))) :=
  ⟨by decide, by decide, by decide, by rw [nth_prime_values.1],
    sieve_fits_of_lt 8 21 (by decide) (by decide), by decide,
    find_nth_term_w_nth_prime 8 300 7 0 21 (by decide) (by decide) (by decide)
      (by rw [nth_prime_values.1]) (sieve_fits_of_lt 8 21 (by decide) (by decide))
      (by decide)⟩

/-- C3: for every number from 2 on, `primality_test` answers `PRIME` if and
only if the number is prime, and `COMPOSITE` otherwise. -/
theorem primality_test_correct (number : Nat) (h : 2 ≤ number) :
    (primality_test number = PRIME ↔ Nat.Prime number) ∧
    (primality_test number = COMPOSITE ↔ ¬ Nat.Prime number) := by
  rw [primality_test_eq]
  have h0 : number ≠ 0 := by omega
  have h1 : number ≠ 1 := by omega
  by_cases hp : Nat.Prime number <;> simp [h0, h1, hp]

theorem primality_test_correct_witness :
    2 ≤ 91 ∧ ((primality_test 91 = PRIME ↔ Nat.Prime 91) ∧
      (primality_test 91 = COMPOSITE ↔ ¬ Nat.Prime 91)) :=
  ⟨by decide, primality_test_correct 91 (by decide)⟩

/-- C4: for every index from 1 on and every initial ceiling estimate, the retry
loop ends: after finitely many iterations (sieve invocations) there is one whose
sieve ends without fault with at least `index` entries, so that the check
`index <= primes.size()` succeeds and the function goes on to the read. -/
theorem find_nth_term_terminates (w index ceiling_estimate : Nat) (h1 : 1 ≤ index) :
    ∃ fuel ceiling primes,
      sieve_of_eratosthenes ceiling [] = Except.ok primes ∧ index ≤ primes.length ∧
      find_nth_term w fuel index ceiling_estimate =
        some (vec_read primes ((index + 2 ^ w - 1) % 2 ^ w)) := by
  obtain ⟨c, hc, hlen, hres⟩ := find_nth_loop_enough w index ceiling_estimate h1
    (Nat.nth Nat.Prime (index - 1)) 15 (le_refl 15) (by omega)
  refine ⟨Nat.nth Nat.Prime (index - 1) + 1, c, primes_upto c, ?_, hlen, hres⟩
  rw [sieve_of_eratosthenes_eq c [] (by omega), List.nil_append]

theorem find_nth_term_terminates_witness :
    1 ≤ 7 ∧ ∃ fuel ceiling primes,
      sieve_of_eratosthenes ceiling [] = Except.ok primes ∧ 7 ≤ primes.length ∧
      find_nth_term 64 fuel 7 0 = some (vec_read primes ((7 + 2 ^ 64 - 1) % 2 ^ 64)) :=
  ⟨by decide, find_nth_term_terminates 64 7 0 (by decide)⟩

/-- C6: for every ceiling, the sequence that the sieve called with an empty
vector produces is strictly increasing (every entry is smaller than every later
one), so it is sorted ascending and has no duplicates. -/
theorem sieve_strictly_increasing (ceiling : Nat) (primes : List Nat)
    (h : sieve_of_eratosthenes ceiling [] = Except.ok primes) :
    primes.Pairwise (fun a b => a < b) ∧ primes.Nodup := by
  have hsorted : primes.Pairwise (fun a b => a < b) := by
    rcases Nat.eq_zero_or_pos ceiling with h0 | h0
    · subst h0
      have hz : sieve_of_eratosthenes 0 [] = Except.error (Fault.out_of_range 1 1) := rfl
      rw [hz] at h
      cases h
    · rw [sieve_of_eratosthenes_eq ceiling [] h0, List.nil_append] at h
      injection h with h
      subst h
      exact primes_upto_sorted ceiling
  exact ⟨hsorted, hsorted.imp (fun hab => Nat.ne_of_lt hab)⟩

theorem sieve_strictly_increasing_witness :
    sieve_of_eratosthenes 10 [] = Except.ok [2, 3, 5, 7] ∧
    ([2, 3, 5, 7].Pairwise (fun a b => a < b) ∧ [2, 3, 5, 7].Nodup) :=
  ⟨sieve_of_eratosthenes_ten, sieve_strictly_increasing 10 [2, 3, 5, 7] sieve_of_eratosthenes_ten⟩

/-- C7: `primality_test 0` is `COMPOSITE`, not `NEITHER`: the number 0 passes
the test `number == 1` and is caught by the test `number % 2 == 0`.  The only
number classified `NEITHER` is 1. -/
theorem primality_test_zero :
    primality_test 0 = COMPOSITE ∧ ∀ n, primality_test n = NEITHER ↔ n = 1 := by
  refine ⟨by decide, fun n => ?_⟩
  rw [primality_test_eq]
  by_cases h0 : n = 0
  · subst h0; simp
  by_cases h1 : n = 1
  · subst h1; simp
  by_cases hp : Nat.Prime n <;> simp [h0, h1, hp]

/-- C8: with ceiling 0 the sieve writes `primality[1]` on an array of one
entry, an access out of range; with ceiling 1 it ends without fault and yields
the empty sequence. -/
theorem sieve_ceiling_zero_and_one :
    sieve_of_eratosthenes 0 [] = Except.error (Fault.out_of_range 1 1) ∧
    sieve_of_eratosthenes 1 [] = Except.ok [] := by
  refine ⟨rfl, ?_⟩
  simp [sieve_of_eratosthenes, vec_write, mark, collect]

/-- C9: `find_nth_term` has no check of its argument.  Called with index 0, on
`T` of `w` bits and with an estimate whose ceiling fits `T`, it runs the sieve
once with ceiling `max(estimate, 15)`, the check `index <= primes.size()`
succeeds, and `primes[index - 1]` is evaluated: the position is `2 ^ 64 - 1` for
`T` narrower than `int` (the `int` -1 converted to `size_t`) and `2 ^ w - 1`
otherwise, beyond the end of the table.  What ends the call is this read out of
range, not a check. -/
theorem find_nth_term_w_index_zero (w fuel gas ceiling_estimate : Nat) (hgas : 1 ≤ gas)
    (hfit : sieve_fits w (max ceiling_estimate 15))
    (hfuel : max ceiling_estimate 15 + 1 < fuel) :
    ∃ primes, (sieve_w w fuel (max ceiling_estimate 15) []).2 = some (Except.ok primes) ∧
      pred_index w 0 = (if w < 32 then 2 ^ 64 - 1 else 2 ^ w - 1) ∧
      primes.length < pred_index w 0 ∧
      find_nth_term_w w fuel gas 0 ceiling_estimate =
        ([max ceiling_estimate 15],
          some (Except.error (Fault.out_of_range (pred_index w 0) primes.length))) := by
  obtain ⟨g, rfl⟩ : ∃ g, gas = g + 1 := ⟨gas - 1, by omega⟩
  have hmax := le_max_right ceiling_estimate 15
  have hsieve := sieve_w_result w fuel (max ceiling_estimate 15) [] (by omega) hfit hfuel
  rw [List.nil_append] at hsieve
  have hlen : (primes_upto (max ceiling_estimate 15)).length ≤ max ceiling_estimate 15 - 1 := by
    rw [primes_upto_eq_range' _ (by omega)]
    have := List.length_filter_le (fun p => decide (Nat.Prime p))
      (List.range' 2 (max ceiling_estimate 15 + 1 - 2))
    simp only [List.length_range'] at this
    omega
  have hc : max ceiling_estimate 15 < 2 ^ w := by have := hfit.1; omega
  have hpred : pred_index w 0 = (if w < 32 then 2 ^ 64 - 1 else 2 ^ w - 1) := by
    unfold pred_index
    by_cases h32 : w < 32
    · simp [h32]
    · simp only [h32, if_false, Nat.zero_add]
      exact Nat.mod_eq_of_lt (by omega)
  have hpos : (primes_upto (max ceiling_estimate 15)).length < pred_index w 0 := by
    rw [hpred]
    by_cases h32 : w < 32
    · simp only [h32, if_true]
      have h1 : 2 ^ w < 2 ^ 32 := Nat.pow_lt_pow_right (by decide) h32
      have h2 : (2:ℕ) ^ 32 < 2 ^ 64 - 1 := by norm_num
      omega
    · simp only [h32, if_false]
      omega
  refine ⟨primes_upto (max ceiling_estimate 15), hsieve, hpred, hpos, ?_⟩
  have hnone : (primes_upto (max ceiling_estimate 15))[pred_index w 0]? = none :=
    List.getElem?_eq_none (by omega)
  unfold find_nth_term_w
  rw [find_nth_loop_w]
  simp only [hsieve, Nat.zero_le, if_true]
  simp [vec_read, hnone]

theorem find_nth_term_w_index_zero_witness :
    1 ≤ 1 ∧ sieve_fits 8 (max 0 15) ∧ max 0 15 + 1 < 300 ∧
    ∃ primes, (sieve_w 8 300 (max 0 15) []).2 = some (Except.ok primes) ∧
      pred_index 8 0 = (if 8 < 32 then 2 ^ 64 - 1 else 2 ^ 8 - 1) ∧
      primes.length < pred_index 8 0 ∧
      find_nth_term_w 8 300 1 0 0 =
        ([max 0 15], some (Except.error (Fault.out_of_range (pred_index 8 0) primes.length))) :=
  ⟨by decide, sieve_fits_of_lt 8 _ (by decide) (by decide), by decide,
    find_nth_term_w_index_zero 8 300 1 0 (by decide)
      (sieve_fits_of_lt 8 _ (by decide) (by decide)) (by decide)⟩

/-- C10, as stated, fails for `T = uint8_t`: index 48 (estimate 250) reports
239, index 50 (estimate 7, that is 263 modulo 256) reports 229, and 239 is not
smaller than 229. -/
theorem find_nth_term_w_u8_not_mono :
    1 ≤ 48 ∧ 48 < 50 ∧
    (find_nth_term_w 8 300 1 48 250).2 = some (Except.ok 239) ∧
    (find_nth_term_w 8 300 14 50 7).2 = some (Except.ok 229) ∧ ¬ 239 < 229 := by
  rw [find_nth_term_w_u8_48, find_nth_term_w_u8_50]
  exact ⟨by decide, by decide, rfl, rfl, by decide⟩

/-- C10, amended: for `T` of `w` bits, all indices `1 <= i < j` and whatever
the two initial estimates, provided that no arithmetic on `T` overflows (a bound
`M` on both first ceilings and on 1.25 times the `j`-th prime fits `T`), the
loops for `i` and for `j` both end, and the value found for `i` is strictly
smaller than the value found for `j`. -/
theorem find_nth_term_w_strict_mono (w fuel i j estimate_i estimate_j M : Nat) (hi : 1 ≤ i)
    (hij : i < j) (hj : j < 2 ^ w) (hMi : max estimate_i 15 ≤ M)
    (hMj : max estimate_j 15 ≤ M) (hM2 : Nat.nth Nat.Prime (j - 1) * 5 / 4 ≤ M)
    (hfit : sieve_fits w M) (hfuel : M + 1 < fuel) :
    (∃ p q, p < q ∧ ∀ gas, Nat.nth Nat.Prime (j - 1) + 1 ≤ gas →
      (find_nth_term_w w fuel gas i estimate_i).2 = some (Except.ok p) ∧
      (find_nth_term_w w fuel gas j estimate_j).2 = some (Except.ok q)) ∧
    (∀ gas_i gas_j p q,
      (find_nth_term_w w fuel gas_i i estimate_i).2 = some (Except.ok p) →
      (find_nth_term_w w fuel gas_j j estimate_j).2 = some (Except.ok q) → p < q) := by
  have hlt : Nat.nth Nat.Prime (i - 1) < Nat.nth Nat.Prime (j - 1) :=
    Nat.nth_strictMono Nat.infinite_setOf_prime (by omega)
  have hM2i : Nat.nth Nat.Prime (i - 1) * 5 / 4 ≤ M := by omega
  have ei := fun gas =>
    (find_nth_term_w_eq w fuel gas i estimate_i M hMi hM2i hfit hfuel).2 hi (by omega)
  have ej := fun gas =>
    (find_nth_term_w_eq w fuel gas j estimate_j M hMj hM2 hfit hfuel).2 (by omega) hj
  constructor
  · refine ⟨_, _, hlt, fun gas hgas => ⟨?_, ?_⟩⟩
    · rw [ei gas]
      exact find_nth_term_eq w i estimate_i gas hi (by omega) (by omega)
    · rw [ej gas]
      exact find_nth_term_eq w j estimate_j gas (by omega) hj hgas
  · intro gas_i gas_j p q hp hq
    rw [ei gas_i] at hp
    rw [ej gas_j] at hq
    rcases find_nth_loop_sound w i estimate_i hi (by omega) gas_i 15 (by decide) with h | h
    · rw [find_nth_term] at hp; rw [h] at hp; cases hp
    rcases find_nth_loop_sound w j estimate_j (by omega) hj gas_j 15 (by decide) with h' | h'
    · rw [find_nth_term] at hq; rw [h'] at hq; cases hq
    rw [find_nth_term, h] at hp
    rw [find_nth_term, h'] at hq
    injection hp with hp
    injection hp with hp
    injection hq with hq
    injection hq with hq
    omega

theorem find_nth_term_w_strict_mono_witness :
    1 ≤ 2 ∧ 2 < 7 ∧ 7 < 2 ^ 8 ∧ max 0 15 ≤ 21 ∧ max 18 15 ≤ 21 ∧
    Nat.nth Nat.Prime (7 - 1) * 5 / 4 ≤ 21 ∧ sieve_fits 8 21 ∧ 21 + 1 < 300 ∧
    ((∃ p q, p < q ∧ ∀ gas, Nat.nth Nat.Prime (7 - 1) + 1 ≤ gas →
      (find_nth_term_w 8 300 gas 2 0).2 = some (Except.ok p) ∧
      (find_nth_term_w 8 300 gas 7 18).2 = some (Except.ok q)) ∧
    (∀ gas_i gas_j p q,
      (find_nth_term_w 8 300 gas_i 2 0).2 = some (Except.ok p) →
      (find_nth_term_w 8 300 gas_j 7 18).2 = some (Except.ok q) → p < q)) :=
  ⟨by decide, by decide, by decide, by decide, by decide,
    by rw [nth_prime_values.1], sieve_fits_of_lt 8 21 (by decide) (by decide),
    by decide,
    find_nth_term_w_strict_mono 8 300 2 7 0 18 21 (by decide) (by decide) (by decide)
      (by decide) (by decide) (by rw [nth_prime_values.1])
      (sieve_fits_of_lt 8 21 (by decide) (by decide)) (by decide)⟩

/-- C12, as stated, fails for `T = uint8_t` and index 54 (estimate 34, that is
290 modulo 256): the ceilings of the first eleven sieve invocations are 34, 42,
52, 65, 81, 101, 126, 157, 196, 245, 50.  After the failed check at ceiling 245
the next ceiling is 50, because `245 * 1.25 = 306.25` does not fit `T`: it is
neither `floor(1.25 * 245) = 306` nor greater than 245. -/
theorem find_nth_term_w_u8_ceilings :
    (find_nth_term_w 8 300 11 54 34).1 = [34, 42, 52, 65, 81, 101, 126, 157, 196, 245, 50] ∧
    245 * 5 / 4 = 306 ∧ ¬ 245 < 50 ∧
    ¬ List.Pairwise (fun c d => c < d) (find_nth_term_w 8 300 11 54 34).1 := by
  rw [find_nth_term_w_u8_54]
  decide

/-- C12, amended: for `T` of `w` bits, provided that no arithmetic on `T`
overflows (a bound `M` on the first ceiling and on 1.25 times the `index`-th
prime fits `T`), the ceilings of the successive sieve invocations of
`find_nth_term` form a strictly increasing sequence: the first is
`max(estimate, 15)`, every ceiling is at least 15, and after a failed check the
next ceiling is `floor(1.25 * c)` for the previous ceiling `c`, which is greater
than `c`. -/
theorem find_nth_term_w_ceilings (w fuel gas index ceiling_estimate M : Nat) (hgas : 1 ≤ gas)
    (hM1 : max ceiling_estimate 15 ≤ M)
    (hM2 : Nat.nth Nat.Prime (index - 1) * 5 / 4 ≤ M) (hfit : sieve_fits w M)
    (hfuel : M + 1 < fuel) :
    (find_nth_term_w w fuel gas index ceiling_estimate).1.head? =
      some (max ceiling_estimate 15) ∧
    (∀ c ∈ (find_nth_term_w w fuel gas index ceiling_estimate).1, 15 ≤ c) ∧
    List.Chain' (fun c d => d = c * 5 / 4 ∧ c < d)
      (find_nth_term_w w fuel gas index ceiling_estimate).1 ∧
    List.Pairwise (fun c d => c < d)
      (find_nth_term_w w fuel gas index ceiling_estimate).1 := by
  rw [(find_nth_term_w_eq w fuel gas index ceiling_estimate M hM1 hM2 hfit hfuel).1]
  obtain ⟨g1, g2, g3, g4⟩ :=
    find_nth_loop_traced_ceilings w index ceiling_estimate gas 15 (le_refl 15)
  unfold find_nth_term_traced
  refine ⟨?_, g3, g4, ?_⟩
  · cases hl : (find_nth_loop_traced w index ceiling_estimate gas 15 []).1 with
    | nil => exact absurd hl (g2 hgas)
    | cons c t =>
      rw [hl] at g1
      simp only [List.head?_cons, Option.some.injEq]
      exact g1 c (by simp)
  · have hlt : List.Chain' (fun c d : Nat => c < d)
        (find_nth_loop_traced w index ceiling_estimate gas 15 []).1 :=
      List.Chain'.imp (fun _ _ h => h.2) g4
    exact List.chain'_iff_pairwise.1 hlt

theorem find_nth_term_w_ceilings_witness :
    1 ≤ 2 ∧ max 0 15 ≤ 21 ∧ Nat.nth Nat.Prime (7 - 1) * 5 / 4 ≤ 21 ∧ sieve_fits 8 21 ∧
    21 + 1 < 300 ∧
    ((find_nth_term_w 8 300 2 7 0).1.head? = some (max 0 15) ∧
    (∀ c ∈ (find_nth_term_w 8 300 2 7 0).1, 15 ≤ c) ∧
    List.Chain' (fun c d => d = c * 5 / 4 ∧ c < d) (find_nth_term_w 8 300 2 7 0).1 ∧
    List.Pairwise (fun c d => c < d) (find_nth_term_w 8 300 2 7 0).1) :=
  ⟨by decide, by decide, by rw [nth_prime_values.1],
    sieve_fits_of_lt 8 21 (by decide) (by decide), by decide,
    find_nth_term_w_ceilings 8 300 2 7 0 21 (by decide) (by decide)
      (by rw [nth_prime_values.1]) (sieve_fits_of_lt 8 21 (by decide) (by decide))
      (by decide)⟩

/-- C14: `primality_test` is total: for every number there is a number of
rounds, at most `number + 1`, within which the trial division loop has ended,
and the answer then is the answer of `primality_test`. -/
theorem primality_test_total (number : Nat) :
    ∃ rounds, rounds ≤ number + 1 ∧ ∀ fuel, rounds ≤ fuel →
      primality_test_fuel fuel number = some (primality_test number) := by
  refine ⟨Nat.sqrt number + 1, ?_, fun fuel hfuel => ?_⟩
  · have := Nat.sqrt_le_self number
    omega
  · apply primality_test_fuel_enough
    exact lt_of_lt_of_le (Nat.lt_succ_sqrt number) (Nat.mul_le_mul hfuel hfuel)

theorem primality_test_total_witness :
    ∃ rounds, rounds ≤ 127 + 1 ∧ ∀ fuel, rounds ≤ fuel →
      primality_test_fuel fuel 127 = some (primality_test 127) :=
  primality_test_total 127

/-- C15: for every number below `(2 ^ 32 - 6) ^ 2`, every product
`divisor * divisor` and every sum `divisor + 2` (and `divisor + 6`) that
`primality_test` evaluates is below `2 ^ 64`, however long the loop is run; and
the computation with a wrapping `size_t` of 64 bits, run until the loop has
ended, returns the result of the computation over unbounded integers. -/
theorem primality_test64_agrees (number fuel : Nat) (hn : number < (2 ^ 32 - 6) ^ 2) :
    (∀ x ∈ (primality_test64 fuel number).1, x < 2 ^ 64) ∧
    (number < fuel * fuel → (primality_test64 fuel number).2 = some (primality_test number)) := by
  have h5 : 5 < 2 ^ 32 := by norm_num
  unfold primality_test64 primality_test
  by_cases h1 : number = 1
  · simp [h1]
  by_cases h23 : number = 2 ∨ number = 3
  · simp [h1, h23]
  by_cases hdiv : number % 2 = 0 ∨ number % 3 = 0
  · simp [h1, h23, hdiv]
  · simp only [h1, h23, hdiv, if_false]
    refine ⟨trial_division64_evaluated number fuel hn 5 h5, fun hfuel => ?_⟩
    have hpos : 0 < fuel := by
      rcases Nat.eq_zero_or_pos fuel with h | h
      · subst h; simp at hfuel
      · exact h
    obtain ⟨k, rfl⟩ : ∃ k, fuel = k + 1 := ⟨fuel - 1, by omega⟩
    exact trial_division64_result number k hn 5 h5
      (lt_of_lt_of_le hfuel (Nat.mul_le_mul (by omega) (by omega)))

theorem primality_test64_agrees_witness :
    127 < (2 ^ 32 - 6) ^ 2 ∧
    ((∀ x ∈ (primality_test64 12 127).1, x < 2 ^ 64) ∧
    (127 < 12 * 12 → (primality_test64 12 127).2 = some (primality_test 127))) :=
  ⟨by norm_num, primality_test64_agrees 127 12 (by norm_num)⟩

/-- C17: for every ceiling from 1 on, every index with which the sieve reads or
writes the marking array is at most the ceiling, the array having
`ceiling + 1` entries at the time; the call ends without an out-of-range
fault. -/
theorem sieve_accesses_in_range (ceiling : Nat) (v : List Nat) (h : 1 ≤ ceiling) :
    (∀ position size, Event.access position size ∈ (sieve_traced ceiling v).1 →
      position ≤ ceiling ∧ size = ceiling + 1) ∧
    (∃ primes, (sieve_traced ceiling v).2 = Except.ok primes ∧
      sieve_of_eratosthenes ceiling v = Except.ok primes) := by
  constructor
  · intro position size hmem
    rcases sieve_traced_events ceiling v h _ hmem with ⟨j, hj, hle⟩ | ⟨p, a, hp, _⟩
    · injection hj with hj1 hj2
      subst hj1
      exact ⟨hle, hj2⟩
    · cases hp
  · refine ⟨v ++ primes_upto ceiling, ?_, sieve_of_eratosthenes_eq ceiling v h⟩
    rw [sieve_traced_snd, sieve_of_eratosthenes_eq ceiling v h]

theorem sieve_accesses_in_range_witness :
    1 ≤ 10 ∧
    ((∀ position size, Event.access position size ∈ (sieve_traced 10 []).1 →
      position ≤ 10 ∧ size = 10 + 1) ∧
    (∃ primes, (sieve_traced 10 []).2 = Except.ok primes ∧
      sieve_of_eratosthenes 10 [] = Except.ok primes)) :=
  ⟨by decide, sieve_accesses_in_range 10 [] (by decide)⟩

end Primal
